import Mathlib

/-!
Shallow embedding of the document replacement/mutation engine of
pkg/document/plugin/replacement/transformer.go.

Modelling conventions:
* Go strings are embedded as List Char.
* Go map[string]interface{} values are embedded as association lists
  (List (List Char × Value)); the code never depends on Go map iteration
  order (all iteration in the engine is over slices).
* Go in-place mutation is embedded by explicit state passing: each mutator
  returns the updated node together with an optional error.
* A Go runtime panic (e.g. index out of range on a slice) is embedded as the
  distinguished error GoErr.goPanic: it is not a value the Go function
  returns, but an abnormal termination of the program.
* The two package-level regular expressions and the user-supplied substring
  patterns are embedded by executable models described at their definitions.
-/

namespace Replacement

/-! ## Strings as lists of characters: split / join (strings.Split, strings.Join) -/

/-- Model of Go strings.Split(s, sep) for a single-character separator. -/
def splitChar (c : Char) : List Char → List (List Char)
  | [] => [[]]
  | x :: xs =>
    match splitChar c xs with
    | [] => [[]]
    | h :: t => if x = c then [] :: h :: t else (x :: h) :: t

/-- Model of Go strings.Join(parts, sep) for a single-character separator. -/
def joinChar (c : Char) : List (List Char) → List Char
  | [] => []
  | [x] => x
  | x :: xs => x ++ c :: joinChar c xs

/-- The sentinel token dotReplacer = four dollar signs. -/
def dotReplacer : List Char := ['$', '$', '$', '$']

/-- Model of strings.ReplaceAll(s, ".", dotReplacer): the pattern is a single
character, so replacement is a character-wise expansion. -/
def protectDots (s : List Char) : List Char :=
  s.flatMap (fun c => if c = '.' then dotReplacer else [c])

/-- Model of strings.ReplaceAll(s, dotReplacer, "."): leftmost,
non-overlapping occurrences of the four-dollar sentinel become dots. -/
def restoreDots : List Char → List Char
  | [] => []
  | '$' :: '$' :: '$' :: '$' :: rest => '.' :: restoreDots rest
  | c :: rest => c :: restoreDots rest

/-! ## Model of the two package-level regular expressions

The transformer compiles two patterns at package init:
  pattern               = (\S+)\[(\S+)=(\S+)\]
  substringPatternRegex = (\S+)%(\S+)%$
Their uses (FindStringSubmatch) are embedded as executable functions.
Since \S cannot cross whitespace, any match lies inside one maximal run of
non-whitespace characters; the leftmost match starts at the first such run
admitting a match, and greedy (\S+) groups resolve to the latest possible
separator occurrences, exactly as a backtracking search finds them. -/

/-- Helper for runsOf: accumulates the current run in reverse. -/
def runsOfAux (cur : List Char) : List Char → List (List Char)
  | [] => if cur = [] then [] else [cur.reverse]
  | c :: cs =>
    if c.isWhitespace then
      if cur = [] then runsOfAux [] cs else cur.reverse :: runsOfAux [] cs
    else runsOfAux (c :: cur) cs

/-- Maximal runs of non-whitespace characters of a string, in order. -/
def runsOf (s : List Char) : List (List Char) :=
  runsOfAux [] s

/-- Index of the last occurrence of c in s, if any. -/
def lastIdxOf (c : Char) (s : List Char) : Option Nat :=
  match s.reverse.findIdx? (fun x => x = c) with
  | some j => some (s.length - 1 - j)
  | none => none

/-- Index of the last occurrence of c in s at an index ≤ bound, if any. -/
def lastIdxLe (c : Char) (bound : Nat) (s : List Char) : Option Nat :=
  lastIdxOf c (s.take (bound + 1))

/-- Characters of s with indices in [a, b). -/
def sliceOf (s : List Char) (a b : Nat) : List Char :=
  (s.drop a).take (b - a)

/-- Greedy match of (\S+)\[(\S+)=(\S+)\] inside one non-whitespace run:
group 3 ends at the last ']' of the run, group 2 ends at the last '='
compatible with it, group 1 ends at the last '[' compatible with both and
must be non-empty from the run start. -/
def segMatchInRun (run : List Char) : Option (List Char × List Char × List Char) :=
  match lastIdxOf ']' run with
  | none => none
  | some k =>
    match lastIdxLe '=' (k - 2) run with
    | none => none
    | some j =>
      match lastIdxLe '[' (j - 2) run with
      | none => none
      | some i =>
        if 1 ≤ i then some (run.take i, sliceOf run (i + 1) j, sliceOf run (j + 1) k)
        else none

/-- Model of getFirstPathSegment: FindStringSubmatch of
(\S+)\[(\S+)=(\S+)\] (leftmost run with a match, greedy groups); on a match
the returned field is group 1 and isArray is true (group 2 of a match is
never empty), otherwise the whole path is the field. -/
def getFirstPathSegment (path : List Char) : List Char × List Char × List Char × Bool :=
  match (runsOf path).findSome? segMatchInRun with
  | some (g1, g2, g3) => (g1, g2, g3, true)
  | none => (path, [], [], false)

/-- Model of extractSubstringPattern: FindStringSubmatch of (\S+)%(\S+)%$.
The match must end at the end of the string and lies in the trailing run of
non-whitespace characters; the final character must be '%', the greedy first
group puts the separator at the last possible earlier '%', and both groups
must be non-empty. On a match the function returns (group 1, group 2): any
prefix of the string outside the match is dropped. Without a match it
returns (path, empty). -/
def extractSubstringPattern (path : List Char) : List Char × List Char :=
  let run := (path.reverse.takeWhile (fun c => !c.isWhitespace)).reverse
  match run.getLast? with
  | some '%' =>
    let body := run.dropLast
    match (body.reverse.drop 1).findIdx? (fun c => c = '%') with
    | some j0 =>
      let q := body.length - 1 - (j0 + 1)
      if 1 ≤ q then (body.take q, body.drop (q + 1)) else (path, [])
    | none => (path, [])
  | _ => (path, [])

/-! ## The path parser embedded from substitute (the per-fieldref block) -/

/-- One iteration of the protection loop in substitute: if the part contains
']' the text before its first ']' has its dots replaced by the sentinel. -/
def protectPart (part : List Char) : List Char :=
  if part.contains ']' then
    match splitChar ']' part with
    | [] => part
    | f0 :: rest => joinChar ']' (protectDots f0 :: rest)
  else part

/-- Replace the last element of a list of segments. -/
def modifyLastL (f : List Char → List Char) : List (List Char) → List (List Char)
  | [] => []
  | [x] => [f x]
  | x :: xs => x :: modifyLastL f xs

/-- The path-splitting portion of substitute: protect dots inside bracketed
filters, pull off a trailing substring pattern, split on dots, re-append the
pattern to the last segment, and restore protected dots. -/
def parsePath (p : List Char) : List (List Char) :=
  let parts := splitChar '[' p
  let tmp := parts.map protectPart
  let p1 := joinChar '[' tmp
  let ex := extractSubstringPattern p1
  let pathSlice := splitChar '.' ex.1
  let pathSlice2 :=
    if ex.2.length > 0 then
      modifyLastL (fun last => last ++ '%' :: ex.2 ++ ['%']) pathSlice
    else pathSlice
  pathSlice2.map restoreDots

/-! ## strconv.Atoi -/

/-- Digits of a non-empty all-digit string as a number. -/
def digitsToNat : List Char → Option Nat
  | [] => none
  | [c] => if c.isDigit then some (c.toNat - '0'.toNat) else none
  | c :: rest =>
    if c.isDigit then
      match digitsToNat rest with
      | some n => some ((c.toNat - '0'.toNat) * 10 ^ rest.length + n)
      | none => none
    else none

/-- Model of strconv.Atoi: optional sign followed by one or more digits.
The int-range overflow check of the Go function is not modelled (indices in
scope are small). -/
def atoi (s : List Char) : Option Int :=
  match s with
  | '+' :: rest => (digitsToNat rest).map Int.ofNat
  | '-' :: rest => (digitsToNat rest).map (fun n => -(n : Int))
  | _ => (digitsToNat s).map Int.ofNat

/-! ## The document tree (Go interface{} values decoded from YAML) -/

/-- A document node: Go map[string]interface{} becomes an association list,
[]interface{} a list, scalars are strings, integers and booleans, and the
untyped nil interface is null. -/
inductive Value where
  | null : Value
  | str : List Char → Value
  | int : Int → Value
  | bool : Bool → Value
  | map : List (List Char × Value) → Value
  | seq : List Value → Value
  deriving Repr

/-- Lookup in a Go map embedded as an association list. -/
def lookupV : List (List Char × Value) → List Char → Option Value
  | [], _ => none
  | (k, v) :: rest, key => if k = key then some v else lookupV rest key

/-- Assignment m[key] = v in a Go map embedded as an association list:
replace the existing binding or append a new one. -/
def insertV : List (List Char × Value) → List Char → Value → List (List Char × Value)
  | [], key, v => [(key, v)]
  | (k, w) :: rest, key, v =>
    if k = key then (k, v) :: rest else (k, w) :: insertV rest key v

/-! ## Errors of the replacement package -/

/-- Causes carried by ErrPatternSubstring messages. -/
inductive PatCause where
  | badReplacementType
  | nonStringTarget
  | notFoundInTarget
  deriving DecidableEq, Repr

/-- Causes carried by ErrBadConfiguration messages. -/
inductive CfgCause where
  | noSource
  | noTarget
  | bothObjRefAndValue
  deriving DecidableEq, Repr

/-- The errors the engine can produce. goPanic is not a Go error value: it
models a runtime panic (nil dereference, slice index out of range, bad
regular expression in MustCompile). outOfFuel is an artifact of the fuelled
embedding of the mutator recursion and never occurs for sufficient fuel. -/
inductive GoErr where
  | badConfiguration : CfgCause → GoErr
  | sourceNotFound : GoErr
  | multipleResources : GoErr
  | targetNotFound : GoErr
  | typeMismatch : GoErr
  | indexOutOfBound : Int → Nat → GoErr
  | mapNotFound : List Char → List Char → List Char → GoErr
  | patternSubstring : PatCause → GoErr
  | atoiError : List Char → GoErr
  | goPanic : GoErr
  | outOfFuel : GoErr
  | externalErr : GoErr
  deriving DecidableEq, Repr

/-! ## A model of the Go regexp fragment used for substring patterns

The substring pattern supplied in a target path is compiled at run time with
regexp.MustCompile and used through MatchString and ReplaceAllString. The
patterns in scope are built from literal characters, escaped characters
(with \d the digit class and \c a literal c otherwise), the any-character
dot, and the greedy postfix operators + and *. On this alternation-free
fragment the leftmost-first match of the Go engine coincides with the
leftmost-longest match computed here. Constructs outside the fragment make
compileRegex return none (treated like a MustCompile panic). -/

inductive Regex where
  | fail : Regex
  | eps : Regex
  | char : Char → Regex
  | digit : Regex
  | any : Regex
  | seq : Regex → Regex → Regex
  | alt : Regex → Regex → Regex
  | star : Regex → Regex
  deriving DecidableEq, Repr

/-- Does the regex accept the empty string? -/
def nullable : Regex → Bool
  | .fail => false
  | .eps => true
  | .char _ => false
  | .digit => false
  | .any => false
  | .seq a b => nullable a && nullable b
  | .alt a b => nullable a || nullable b
  | .star _ => true

/-- Brzozowski derivative: the language after consuming character c.
The digit class is [0-9]; the dot matches any character except newline. -/
def deriv (r : Regex) (c : Char) : Regex :=
  match r with
  | .fail => .fail
  | .eps => .fail
  | .char d => if c = d then .eps else .fail
  | .digit => if c.isDigit then .eps else .fail
  | .any => if c = '\n' then .fail else .eps
  | .seq a b =>
    if nullable a then .alt (.seq (deriv a c) b) (deriv b c)
    else .seq (deriv a c) b
  | .alt a b => .alt (deriv a c) (deriv b c)
  | .star a => .seq (deriv a c) (.star a)

/-- Length of the longest prefix of s matched by r, tracked by iterated
derivatives. -/
def maxMunchAux (r : Regex) (s : List Char) (idx : Nat) (best : Option Nat) : Option Nat :=
  let best1 := if nullable r then some idx else best
  match s with
  | [] => best1
  | c :: cs => maxMunchAux (deriv r c) cs (idx + 1) best1

/-- Length of the longest prefix of s matched by r, if any prefix matches. -/
def maxMunch (r : Regex) (s : List Char) : Option Nat :=
  maxMunchAux r s 0 none

/-- Model of MatchString: some position of s starts a match. -/
def matchStr (r : Regex) (s : List Char) : Bool :=
  (maxMunch r s).isSome ||
    match s with
    | [] => false
    | _ :: cs => matchStr r cs

/-- The leftmost match of the regex in a string: the offset of the first
position admitting a prefix match and the length of the longest match
there (leftmost-first equals leftmost-longest on the alternation-free
fragment, as for maxMunch). -/
def findLeftmost (r : Regex) : List Char → Option (Nat × Nat)
  | [] =>
    match maxMunch r [] with
    | some n => some (0, n)
    | none => none
  | c :: cs =>
    match maxMunch r (c :: cs) with
    | some n => some (0, n)
    | none => (findLeftmost r cs).map (fun pn => (pn.1 + 1, pn.2))

/-- Faithful embedding of the replacement loop of the Go regexp package
(regexp.Replace, used by ReplaceAllString): searchPos and lastMatchEnd
walk the source; each leftmost match from searchPos emits the pending
unmatched text and the replacement, except that an empty-width match
ending at the previous match end (and not at position 0) emits no
replacement; the scan always advances at least one character past an
empty match. Fuel only bounds the loop; the wrapper supplies enough for
the whole string. -/
def replaceLoop (r : Regex) (repl src : List Char) : Nat → Nat → Nat → List Char
  | 0, _, lastMatchEnd => src.drop lastMatchEnd
  | fuel + 1, searchPos, lastMatchEnd =>
    if searchPos ≤ src.length then
      match findLeftmost r (src.drop searchPos) with
      | none => src.drop lastMatchEnd
      | some pn =>
        let a0 := searchPos + pn.1
        let a1 := a0 + pn.2
        let gap := (src.drop lastMatchEnd).take (a0 - lastMatchEnd)
        let ins := if lastMatchEnd < a1 ∨ a0 = 0 then repl else []
        let searchPos2 := if a1 < searchPos + 1 then searchPos + 1 else a1
        gap ++ ins ++ replaceLoop r repl src fuel searchPos2 a1
    else src.drop lastMatchEnd

/-- Model of ReplaceAllString(s, repl). -/
def replaceAllString (r : Regex) (repl : List Char) (s : List Char) : List Char :=
  replaceLoop r repl s (s.length + 2) 0 0

/-- Is the character a metacharacter outside the supported fragment (when
unescaped)? -/
def badMeta (c : Char) : Bool :=
  c = '(' ∨ c = ')' ∨ c = '[' ∨ c = ']' ∨ c = '|' ∨ c = '?' ∨
    c = '+' ∨ c = '*' ∨ c = '^' ∨ c = '$'

/-- The atom denoted by an escaped character. -/
def escAtom (c : Char) : Regex :=
  if c = 'd' then Regex.digit else Regex.char c

/-- The atom denoted by a plain character. -/
def plainAtom (c : Char) : Regex :=
  if c = '.' then Regex.any else Regex.char c

/-- Greedy plus: one or more repetitions of an atom. -/
def plusR (a : Regex) : Regex :=
  Regex.seq a (Regex.star a)

/-- Parser for the regex fragment: a sequence of atoms, each optionally
followed by + or *. Unsupported metacharacters yield none. -/
def compileAtoms : List Char → Option (List Regex)
  | [] => some []
  | ['\\'] => none
  | '\\' :: c :: '+' :: r3 => (compileAtoms r3).map (fun l => plusR (escAtom c) :: l)
  | '\\' :: c :: '*' :: r3 => (compileAtoms r3).map (fun l => Regex.star (escAtom c) :: l)
  | '\\' :: c :: rest2 => (compileAtoms rest2).map (fun l => escAtom c :: l)
  | c :: '+' :: r3 =>
    if badMeta c then none
    else (compileAtoms r3).map (fun l => plusR (plainAtom c) :: l)
  | c :: '*' :: r3 =>
    if badMeta c then none
    else (compileAtoms r3).map (fun l => Regex.star (plainAtom c) :: l)
  | c :: rest =>
    if badMeta c then none
    else (compileAtoms rest).map (fun l => plainAtom c :: l)

/-- Compile a pattern string into the regex model. -/
def compileRegex (s : List Char) : Option Regex :=
  (compileAtoms s).map (fun l => l.foldr Regex.seq Regex.eps)

/-! ## applySubstringPattern -/

/-- The replacement value stringified for substring substitution: Go
stringifies the signed and unsigned integer types with fmt.Sprint and passes
strings through; every other type (booleans included) is rejected. -/
def replacementString : Value → Option (List Char)
  | .int n => some (toString n).toList
  | .str s => some s
  | _ => none

/-- Embedding of applySubstringPattern: with no pattern the replacement is
returned as is; otherwise the replacement must stringify, the target must be
a string, the compiled pattern must match somewhere in it, and all matches
are replaced. -/
def applySubstringPattern (target replacement : Value) (substringPattern : List Char) :
    Except GoErr Value :=
  if substringPattern = [] then .ok replacement
  else
    match replacementString replacement with
    | none => .error (.patternSubstring .badReplacementType)
    | some rs =>
      match target with
      | .str tgt =>
        match compileRegex substringPattern with
        | none => .error .goPanic
        | some r =>
          if matchStr r tgt then .ok (.str (replaceAllString r rs tgt))
          else .error (.patternSubstring .notFoundInTarget)
      | _ => .error (.patternSubstring .nonStringTarget)

/-! ## The tree mutator

updateField / updateMapField / updateSliceField are embedded with explicit
state passing (the returned Value is the possibly mutated node) and a fuel
argument for the mutual recursion; outOfFuel never arises for fuel larger
than the nesting depth of the document. -/

/-- The scan shared by the filter branches: find the first element whose
field key equals the filter value (a non-string field value never compares
equal to the string filter value). The first element that is not a mapping
aborts the scan (Go returns ErrTypeMismatch there). -/
def filterFind : List Value → List Char → List Char → Except Unit (Option Nat)
  | [], _, _ => .ok none
  | item :: rest, key, value =>
    match item with
    | .map es =>
      match lookupV es key with
      | some actual =>
        match actual with
        | .str s =>
          if s = value then .ok (some 0)
          else (filterFind rest key value).map (Option.map (· + 1))
        | _ => (filterFind rest key value).map (Option.map (· + 1))
      | none => (filterFind rest key value).map (Option.map (· + 1))
    | _ => .error ()

mutual

/-- Embedding of updateField: dispatch on the dynamic type of the node. -/
def updateField (fuel : Nat) (m : Value) (pathToField : List (List Char))
    (replacement : Value) : Value × Option GoErr :=
  match fuel with
  | 0 => (m, some .outOfFuel)
  | fuel1 + 1 =>
    match pathToField with
    | [] => (m, none)
    | _ :: _ =>
      match m with
      | .map entries =>
        let res := updateMapField fuel1 entries pathToField replacement
        (.map res.1, res.2)
      | .seq items =>
        let res := updateSliceField fuel1 items pathToField replacement
        (.seq res.1, res.2)
      | other => (other, some .typeMismatch)

/-- Embedding of updateMapField. The key of the first step is the field
name stripped of a bracket filter and of a substring pattern; an absent key
is auto-created as an empty map before anything else. -/
def updateMapField (fuel : Nat) (entries : List (List Char × Value))
    (pathToField : List (List Char)) (replacement : Value) :
    List (List Char × Value) × Option GoErr :=
  match fuel with
  | 0 => (entries, some .outOfFuel)
  | fuel1 + 1 =>
    match pathToField with
    | [] => (entries, some .goPanic)
    | seg :: restPath =>
      let fs := getFirstPathSegment seg
      let path0 := fs.1
      let key := fs.2.1
      let value := fs.2.2.1
      let isArray := fs.2.2.2
      let ex := extractSubstringPattern path0
      let path1 := ex.1
      let substringPattern := ex.2
      let vEntries : Value × List (List Char × Value) :=
        match lookupV entries path1 with
        | some v => (v, entries)
        | none => (.map [], insertV entries path1 (.map []))
      let v := vEntries.1
      let entries1 := vEntries.2
      match v with
      | .null => (entries1, some .typeMismatch)
      | _ =>
        if restPath = [] then
          if isArray = false then
            match applySubstringPattern v replacement substringPattern with
            | .error e => (entries1, some e)
            | .ok rendered => (insertV entries1 path1 rendered, none)
          else
            match v with
            | .seq items =>
              match filterFind items key value with
              | .error _ => (entries1, some .typeMismatch)
              | .ok (some i) => (insertV entries1 path1 (.seq (items.set i replacement)), none)
              | .ok none =>
                let res := updateField fuel1 v pathToField replacement
                (insertV entries1 path1 res.1, res.2)
            | _ => (entries1, some .typeMismatch)
        else
          if isArray then
            let res := updateField fuel1 v pathToField replacement
            (insertV entries1 path1 res.1, res.2)
          else
            let res := updateField fuel1 v restPath replacement
            (insertV entries1 path1 res.1, res.2)

/-- Embedding of updateSliceField. With a filter the matching element is
descended into; without one the step must parse as an integer index. The
bounds check of the source accepts index == len(m), on which the subsequent
slice access panics at run time (embedded as goPanic). -/
def updateSliceField (fuel : Nat) (items : List Value)
    (pathToField : List (List Char)) (replacement : Value) :
    List Value × Option GoErr :=
  match fuel with
  | 0 => (items, some .outOfFuel)
  | fuel1 + 1 =>
    match pathToField with
    | [] => (items, none)
    | seg :: restPath =>
      let fs := getFirstPathSegment seg
      let path0 := fs.1
      let key := fs.2.1
      let value := fs.2.2.1
      let isArray := fs.2.2.2
      if isArray then
        match filterFind items key value with
        | .error _ => (items, some .typeMismatch)
        | .ok (some i) =>
          let res := updateField fuel1 (items.getD i .null) restPath replacement
          (items.set i res.1, res.2)
        | .ok none => (items, some (.mapNotFound key value path0))
      else
        match atoi seg with
        | none => (items, some (.atoiError seg))
        | some index =>
          if (items.length : Int) < index ∨ index < 0 then
            (items, some (.indexOutOfBound index items.length))
          else
            let i := index.toNat
            if i = items.length then (items, some .goPanic)
            else if restPath = [] then (items.set i replacement, none)
            else
              let res := updateField fuel1 (items.getD i .null) restPath replacement
              (items.set i res.1, res.2)

end

/-! ## The orchestrator: resource collection, source resolution, substitute,
Transform and New

The resource collection (kustomize resmap.ResMap) is an external
collaborator: it is embedded as an ordered list of resources, each carrying
its document body (r.Map()) and an external GetFieldValue operation.
Selectors (built from object references) are embedded as predicates on
resources, and m.Select(s) as an order-preserving filter. -/

/-- A resource of the collection: the document body and the external
GetFieldValue operation of the kustomize resource. -/
structure Resource where
  body : Value
  fieldValue : List Char → Except GoErr Value

/-- A selector over resources (external collaborator semantics). -/
def Selector : Type := Resource → Bool

/-- The source of a replacement (airshipv1 ReplSource): an optional object
reference, an optional literal value (empty string means unset) and an
optional field reference. -/
structure ReplSource where
  objRef : Option Selector
  value : List Char
  fieldRef : List Char

/-- The target of a replacement (types.ReplTarget). -/
structure ReplTarget where
  objRef : Option Selector
  fieldRefs : List (List Char)

/-- One replacement rule of the transformer configuration. -/
structure Replacement' where
  source : Option ReplSource
  target : Option ReplTarget

/-- The default source field reference. -/
def defaultFieldRef : List Char := "metadata.name".toList

/-- Embedding of getReplacement: select by the source object reference,
demand exactly one match, then read the source field from the single
resource. -/
def getReplacement (m : List Resource) (sel : Selector) (fieldRef : List Char) :
    Except GoErr Value :=
  let resources := m.filter sel
  if resources.length > 1 then .error .multipleResources
  else
    match resources with
    | [] => .error .sourceNotFound
    | r :: _ =>
      r.fieldValue (if fieldRef = [] then defaultFieldRef else fieldRef)

/-- Apply every field path of a target entry to one document body, in
order, stopping at the first error (embedding of the inner loop of
substitute; the path is parsed per application). -/
def applyFieldRefs (fuel : Nat) (body : Value) (paths : List (List Char))
    (replacement : Value) : Value × Option GoErr :=
  match paths with
  | [] => (body, none)
  | p :: ps =>
    let res := updateField fuel body (parsePath p) replacement
    match res.2 with
    | some e => (res.1, some e)
    | none => applyFieldRefs fuel res.1 ps replacement

/-- Process the resources of the collection in order: matched resources
receive every field path until the first error; resources after the error
are left untouched (embedding of the resource loop of substitute). -/
def substituteList (fuel : Nat) (sel : Selector) (paths : List (List Char))
    (replacement : Value) : List Resource → List Resource × Option GoErr
  | [] => ([], none)
  | r :: rs =>
    if sel r then
      let res := applyFieldRefs fuel r.body paths replacement
      let r1 : Resource := { r with body := res.1 }
      match res.2 with
      | some e => (r1 :: rs, some e)
      | none =>
        let rest := substituteList fuel sel paths replacement rs
        (r1 :: rest.1, rest.2)
    else
      let rest := substituteList fuel sel paths replacement rs
      (r :: rest.1, rest.2)

/-- Embedding of substitute: select the target documents (no match is
ErrTargetNotFound) and mutate each in order. Dereferencing a nil target
object reference is a runtime panic. -/
def substitute (fuel : Nat) (m : List Resource) (tg : ReplTarget)
    (replacement : Value) : List Resource × Option GoErr :=
  match tg.objRef with
  | none => (m, some .goPanic)
  | some sel =>
    if (m.filter sel).isEmpty then (m, some .targetNotFound)
    else substituteList fuel sel tg.fieldRefs replacement m

/-- Embedding of one iteration of the Transform loop: resolve the source
(object reference first, a non-empty literal value overriding), then
substitute into the targets. Dereferencing a nil source is a runtime
panic (New validates it beforehand). -/
def transformOne (fuel : Nat) (r : Replacement') (m : List Resource) :
    List Resource × Option GoErr :=
  match r.source with
  | none => (m, some .goPanic)
  | some src =>
    let step1 : Except GoErr Value :=
      match src.objRef with
      | some sel => getReplacement m sel src.fieldRef
      | none => .ok .null
    match step1 with
    | .error e => (m, some e)
    | .ok repl0 =>
      let replacement := if src.value ≠ [] then Value.str src.value else repl0
      match r.target with
      | none => (m, some .goPanic)
      | some tgt => substitute fuel m tgt replacement

/-- Embedding of Transform: fold the rules over the collection, stopping at
the first error and keeping already applied mutations. -/
def transform (fuel : Nat) : List Replacement' → List Resource → List Resource × Option GoErr
  | [], m => (m, none)
  | r :: rs, m =>
    let res := transformOne fuel r m
    match res.2 with
    | some e => (res.1, some e)
    | none => transform fuel rs res.1

/-- The validation applied to one rule by New, in source order: a missing
source, then a missing target, then a source with both an object reference
and a literal value. -/
def checkRule (r : Replacement') : Option GoErr :=
  match r.source with
  | none => some (.badConfiguration .noSource)
  | some s =>
    match r.target with
    | none => some (.badConfiguration .noTarget)
    | some _ =>
      match s.objRef with
      | some _ => if s.value ≠ [] then some (.badConfiguration .bothObjRefAndValue) else none
      | none => none

/-- Embedding of the validation loop of New: the unstructured decoding that
precedes it is an external collaborator, so New is modelled on the decoded
rule list; it returns the first configuration error, if any. New receives
no document collection at all. -/
def newPlugin : List Replacement' → Option GoErr
  | [] => none
  | r :: rs =>
    match checkRule r with
    | some e => some e
    | none => newPlugin rs

/-! ## Verified claims -/

/-- A replacement rule is malformed: no source, no target, or a source
specifying both an object reference and a literal value. -/
def ruleMalformed (r : Replacement') : Prop :=
  r.source = none ∨ r.target = none ∨
    ∃ s, r.source = some s ∧ s.objRef ≠ none ∧ s.value ≠ []

/-- checkRule accepts a rule exactly when it is not malformed. -/
theorem checkRule_none_iff (r : Replacement') : checkRule r = none ↔ ¬ ruleMalformed r := by
  unfold checkRule ruleMalformed
  cases hs : r.source with
  | none => simp [hs]
  | some s =>
    cases ht : r.target with
    | none => simp [hs, ht]
    | some t =>
      cases ho : s.objRef with
      | none => simp [hs, ht, ho]
      | some sel =>
        by_cases hv : s.value = [] <;> simp [hs, ht, ho, hv]

/-- Every error of checkRule is a configuration error. -/
theorem checkRule_shape (r : Replacement') (e : GoErr) (h : checkRule r = some e) :
    ∃ c, e = GoErr.badConfiguration c := by
  unfold checkRule at h
  cases hs : r.source with
  | none =>
    simp only [hs] at h
    exact ⟨_, (Option.some.inj h).symm⟩
  | some s =>
    cases ht : r.target with
    | none =>
      simp only [hs, ht] at h
      exact ⟨_, (Option.some.inj h).symm⟩
    | some t =>
      cases ho : s.objRef with
      | none =>
        simp only [hs, ht, ho] at h
        cases h
      | some sel =>
        by_cases hv : s.value = []
        · simp only [hs, ht, ho, hv, ne_eq, not_true_eq_false, if_false] at h
          cases h
        · simp only [hs, ht, ho] at h
          rw [if_pos hv] at h
          exact ⟨_, (Option.some.inj h).symm⟩

/-- C8: construction fails with ErrBadConfiguration exactly when some rule
has no source, no target, or a source with both an object reference and a
literal value; New validates the decoded rule set only and receives no
document collection, so rejection has no side effects. -/
theorem C8_new_validation (cfg : List Replacement') :
    (newPlugin cfg ≠ none ↔ ∃ r ∈ cfg, ruleMalformed r) ∧
    (∀ e, newPlugin cfg = some e → ∃ c, e = GoErr.badConfiguration c) := by
  constructor
  · induction cfg with
    | nil => simp [newPlugin]
    | cons r rs ih =>
      rw [newPlugin]
      cases hc : checkRule r with
      | some e =>
        simp only [ne_eq, reduceCtorEq, not_false_iff, true_iff]
        refine ⟨r, List.mem_cons_self r rs, ?_⟩
        by_contra hmal
        rw [← checkRule_none_iff] at hmal
        rw [hmal] at hc; cases hc
      | none =>
        rw [checkRule_none_iff] at hc
        constructor
        · intro h
          obtain ⟨r2, hr2, hmal⟩ := ih.mp h
          exact ⟨r2, List.mem_cons_of_mem r hr2, hmal⟩
        · rintro ⟨r2, hr2, hmal⟩
          rcases List.mem_cons.mp hr2 with heq | hmem
          · exact absurd (heq ▸ hmal) hc
          · exact ih.mpr ⟨r2, hmem, hmal⟩
  · induction cfg with
    | nil => intro e h; simp [newPlugin] at h
    | cons r rs ih =>
      intro e h
      rw [newPlugin] at h
      cases hc : checkRule r with
      | some e0 =>
        rw [hc] at h
        have he : e0 = e := Option.some.inj h
        exact he ▸ checkRule_shape r e0 hc
      | none => rw [hc] at h; exact ih e h

/-- C8 witness: a rule set with a source-less rule is rejected with a
configuration error. -/
theorem C8_new_validation_witness :
    newPlugin [{ source := none, target := none }] ≠ none ∧
    ∃ c, newPlugin [{ source := none, target := none }] =
      some (GoErr.badConfiguration c) := by
  have h := C8_new_validation [{ source := none, target := none }]
  have h1 : newPlugin [{ source := none, target := none }] ≠ none :=
    h.1.mpr ⟨_, List.mem_singleton.mpr rfl, Or.inl rfl⟩
  refine ⟨h1, ?_⟩
  cases he : newPlugin [{ source := none, target := none }] with
  | none => exact absurd he h1
  | some e =>
    obtain ⟨c, hc⟩ := h.2 e he
    exact ⟨c, by rw [hc]⟩

/-- C5: with a source object reference, resolution demands exactly one
selected document: zero matches yield ErrSourceNotFound and two or more
yield ErrMultipleResources, and in both cases the collection is returned
untouched, before any target of the rule is queried or mutated. -/
theorem C5_source_resolution (fuel : Nat) (m : List Resource) (sel : Selector)
    (val fr : List Char) (tgt : Option ReplTarget) :
    ((m.filter sel).length = 0 →
      transformOne fuel
        { source := some { objRef := some sel, value := val, fieldRef := fr }, target := tgt } m
        = (m, some .sourceNotFound)) ∧
    (2 ≤ (m.filter sel).length →
      transformOne fuel
        { source := some { objRef := some sel, value := val, fieldRef := fr }, target := tgt } m
        = (m, some .multipleResources)) := by
  constructor
  · intro h
    have hnil : m.filter sel = [] := List.length_eq_zero.mp h
    unfold transformOne getReplacement
    simp [hnil]
  · intro h
    have hgt : (m.filter sel).length > 1 := by omega
    unfold transformOne getReplacement
    simp [hgt]

/-- C5 witness: a never-matching selector yields ErrSourceNotFound on a
one-resource collection; an always-matching selector yields
ErrMultipleResources on a two-resource collection; both leave the
collection unchanged. -/
theorem C5_source_resolution_witness :
    transformOne 3
      { source := some { objRef := some (fun _ => false), value := [], fieldRef := [] },
        target := some { objRef := some (fun _ => true), fieldRefs := [['a']] } }
      [{ body := .null, fieldValue := fun _ => .ok .null }]
      = ([{ body := .null, fieldValue := fun _ => .ok .null }], some .sourceNotFound) ∧
    transformOne 3
      { source := some { objRef := some (fun _ => true), value := [], fieldRef := [] },
        target := some { objRef := some (fun _ => true), fieldRefs := [['a']] } }
      [{ body := .null, fieldValue := fun _ => .ok .null },
       { body := .seq [], fieldValue := fun _ => .ok .null }]
      = ([{ body := .null, fieldValue := fun _ => .ok .null },
          { body := .seq [], fieldValue := fun _ => .ok .null }], some .multipleResources) := by
  constructor
  · exact (C5_source_resolution 3 [{ body := .null, fieldValue := fun _ => .ok .null }]
      (fun _ => false) [] [] (some { objRef := some (fun _ => true), fieldRefs := [['a']] })).1 rfl
  · exact (C5_source_resolution 3
      [{ body := .null, fieldValue := fun _ => .ok .null },
       { body := .seq [], fieldValue := fun _ => .ok .null }]
      (fun _ => true) [] [] (some { objRef := some (fun _ => true), fieldRefs := [['a']] })).2
      (by norm_num)

/-- C9: processing is fail-fast and non-transactional: once the leading
rules have succeeded, the first failing rule stops the whole transform with
that very error and with the state the collection had reached (mutations of
earlier rules kept, later rules never run); likewise inside one rule the
first failing field path stops the remaining paths while keeping earlier
path mutations. -/
theorem C9_fail_fast (fuel : Nat) (rs1 : List Replacement') (r : Replacement')
    (rs2 : List Replacement') (m m1 m2 : List Resource) (e : GoErr)
    (h1 : transform fuel rs1 m = (m1, none))
    (h2 : transformOne fuel r m1 = (m2, some e)) :
    transform fuel (rs1 ++ r :: rs2) m = (m2, some e) ∧
    (∀ (body : Value) (ps1 : List (List Char)) (p : List Char) (ps2 : List (List Char))
        (b1 b2 : Value) (e2 : GoErr) (repl : Value),
      applyFieldRefs fuel body ps1 repl = (b1, none) →
      updateField fuel b1 (parsePath p) repl = (b2, some e2) →
      applyFieldRefs fuel body (ps1 ++ p :: ps2) repl = (b2, some e2)) := by
  constructor
  · induction rs1 generalizing m with
    | nil =>
      rw [transform] at h1
      injection h1 with hm _
      subst hm
      simp [transform, h2]
    | cons a as ih =>
      rw [transform] at h1
      cases hres : transformOne fuel a m with
      | mk ma oe =>
        rw [hres] at h1
        cases oe with
        | some e0 => injection h1 with _ hbad; cases hbad
        | none =>
          simp only at h1
          have goal2 := ih ma h1
          simp only [List.cons_append]
          rw [transform, hres]
          exact goal2
  · intro body ps1 p ps2 b1 b2 e2 repl ha hb
    induction ps1 generalizing body with
    | nil =>
      rw [applyFieldRefs] at ha
      injection ha with hbody _
      subst hbody
      simp [applyFieldRefs, hb]
    | cons q qs ih =>
      rw [applyFieldRefs] at ha
      cases hres : updateField fuel body (parsePath q) repl with
      | mk bq oe =>
        rw [hres] at ha
        cases oe with
        | some e0 => injection ha with _ hbad; cases hbad
        | none =>
          simp only at ha
          simp only [List.cons_append]
          rw [applyFieldRefs, hres]
          exact ih bq ha

/-- C9 witness: an empty prefix of rules followed by a rule whose source
matches nothing fails the whole transform with ErrSourceNotFound and the
untouched collection. -/
theorem C9_fail_fast_witness :
    transform 3
      ([] ++ ({ source := some { objRef := some (fun _ => false), value := [], fieldRef := [] },
                target := some { objRef := some (fun _ => true), fieldRefs := [] } } : Replacement') ::
        [{ source := none, target := none }])
      [{ body := Value.null, fieldValue := fun _ => .ok .null }]
      = ([{ body := Value.null, fieldValue := fun _ => .ok .null }], some .sourceNotFound) :=
  (C9_fail_fast 3 [] _ _ _ _ _ _ rfl rfl).1

/-- C10: when the terminal step's field is absent from the mapping and the
step carries a substring pattern, the mutator first installs a freshly
created empty mapping at that key and then fails with ErrPatternSubstring,
whatever the replacement value is: the empty mapping stays behind. -/
theorem C10_vivify_then_pattern_error (fuel : Nat) (entries : List (List Char × Value))
    (seg name pat : List Char) (repl : Value)
    (hseg : getFirstPathSegment seg = (seg, [], [], false))
    (hex : extractSubstringPattern seg = (name, pat))
    (hpat : pat ≠ [])
    (habs : lookupV entries name = none) :
    ∃ c, updateMapField (fuel + 1) entries [seg] repl =
      (insertV entries name (Value.map []), some (.patternSubstring c)) := by
  cases hrepl : replacementString repl with
  | none =>
    refine ⟨.badReplacementType, ?_⟩
    simp only [updateMapField, hseg, hex, habs, applySubstringPattern, hrepl]
    simp [hpat]
  | some rs =>
    refine ⟨.nonStringTarget, ?_⟩
    simp only [updateMapField, hseg, hex, habs, applySubstringPattern, hrepl]
    simp [hpat]

/-- C10 witness: target path segment env%p% on a mapping without the env
key creates an empty mapping at env and reports ErrPatternSubstring. -/
theorem C10_vivify_then_pattern_error_witness :
    ∃ c, updateMapField 3 [(['a'], Value.str ['x'])] ["env%p%".toList] (Value.str ['r']) =
      ([(['a'], Value.str ['x']), ("env".toList, Value.map [])],
        some (.patternSubstring c)) :=
  C10_vivify_then_pattern_error 2 [(['a'], Value.str ['x'])] "env%p%".toList
    "env".toList ['p'] (Value.str ['r']) rfl rfl (by decide) rfl

/-- C7: a non-terminal field step over a mapping whose key is absent
auto-creates an empty mapping at that key and recurses into it; sequences
are never grown (or shrunk) by the mutator; and the end-to-end example:
metadata.labels.env on a document without labels creates the mapping and
sets env to the literal. -/
theorem C7_auto_vivification :
    (∀ (fuel : Nat) (entries : List (List Char × Value)) (seg : List Char)
        (restPath : List (List Char)) (repl : Value),
      getFirstPathSegment seg = (seg, [], [], false) →
      extractSubstringPattern seg = (seg, []) →
      lookupV entries seg = none →
      restPath ≠ [] →
      updateMapField (fuel + 1) entries (seg :: restPath) repl =
        (insertV (insertV entries seg (Value.map [])) seg
           (updateField fuel (Value.map []) restPath repl).1,
         (updateField fuel (Value.map []) restPath repl).2)) ∧
    (∀ (fuel : Nat) (items : List Value) (path : List (List Char)) (repl : Value),
      ((updateSliceField fuel items path repl).1).length = items.length) ∧
    updateField 10
      (Value.map [("metadata".toList, Value.map [("name".toList, Value.str ['x'])])])
      (parsePath "metadata.labels.env".toList) (Value.str "prod".toList) =
      (Value.map [("metadata".toList, Value.map [("name".toList, Value.str ['x']),
        ("labels".toList, Value.map [("env".toList, Value.str "prod".toList)])])], none) := by
  refine ⟨?_, ?_, rfl⟩
  · intro fuel entries seg restPath repl hseg hex habs hrest
    cases restPath with
    | nil => exact absurd rfl hrest
    | cons q qs => simp [updateMapField, hseg, hex, habs]
  · intro fuel items path repl
    cases fuel with
    | zero => rfl
    | succ f =>
      cases path with
      | nil => rfl
      | cons seg rest =>
        simp only [updateSliceField]
        repeat' split
        all_goals simp [List.length_set]

/-- C7 witness: vivification of the missing key labels with remaining path
env recurses into a fresh empty mapping, and slice updates preserve length
at a concrete out-of-range index. -/
theorem C7_auto_vivification_witness :
    updateMapField 4 [("name".toList, Value.str ['x'])]
      ["labels".toList, "env".toList] (Value.str "prod".toList) =
      ([("name".toList, Value.str ['x']),
        ("labels".toList, Value.map [("env".toList, Value.str "prod".toList)])], none) ∧
    ((updateSliceField 3 [Value.null] [['5']] Value.null).1).length = 1 := by
  constructor
  · have h := (C7_auto_vivification.1) 3 [("name".toList, Value.str ['x'])]
      "labels".toList ["env".toList] (Value.str "prod".toList) rfl rfl rfl (by simp)
    rw [h]
    rfl
  · exact (C7_auto_vivification.2.1) 3 [Value.null] [['5']] Value.null

/-- A sequence has no element matching the filter: every element is a
mapping and none binds the key to the filter value. -/
def NoFilterMatch (items : List Value) (key value : List Char) : Prop :=
  ∀ item ∈ items, ∃ es, item = Value.map es ∧
    ∀ v, lookupV es key = some v → v ≠ Value.str value

/-- With no matching element the filter scan reports the absence. -/
theorem filterFind_eq_none (items : List Value) (key value : List Char)
    (h : NoFilterMatch items key value) : filterFind items key value = .ok none := by
  induction items with
  | nil => rfl
  | cons item rest ih =>
    obtain ⟨es, hitem, hnov⟩ := h item (List.mem_cons_self item rest)
    subst hitem
    have hrest : NoFilterMatch rest key value := fun it hmem => h it (List.mem_cons_of_mem _ hmem)
    rw [filterFind]
    cases hl : lookupV es key with
    | none => simp [ih hrest, Except.map]
    | some v =>
      cases v with
      | str s =>
        have hne : s ≠ value := by
          intro hcontra
          exact hnov _ hl (by rw [hcontra])
        simp [hne, ih hrest, Except.map]
      | null => simp [ih hrest, Except.map]
      | int n => simp [ih hrest, Except.map]
      | bool b => simp [ih hrest, Except.map]
      | map es2 => simp [ih hrest, Except.map]
      | seq xs => simp [ih hrest, Except.map]

/-- The filter scan finds the first matching element. -/
theorem filterFind_first_match (pre : List Value) (es : List (List Char × Value))
    (post : List Value) (key value : List Char)
    (hpre : NoFilterMatch pre key value)
    (hm : lookupV es key = some (Value.str value)) :
    filterFind (pre ++ Value.map es :: post) key value = .ok (some pre.length) := by
  induction pre with
  | nil =>
    simp only [List.nil_append, List.length_nil]
    rw [filterFind, hm]
    simp
  | cons item rest ih =>
    obtain ⟨es2, hitem, hnov⟩ := hpre item (List.mem_cons_self item rest)
    subst hitem
    have hrest : NoFilterMatch rest key value := fun it hmem => hpre it (List.mem_cons_of_mem _ hmem)
    simp only [List.cons_append, List.length_cons]
    rw [filterFind]
    cases hl : lookupV es2 key with
    | none => simp [ih hrest, Except.map]
    | some v =>
      cases v with
      | str s =>
        have hne : s ≠ value := by
          intro hcontra
          exact hnov _ hl (by rw [hcontra])
        simp [hne, ih hrest, Except.map]
      | null => simp [ih hrest, Except.map]
      | int n => simp [ih hrest, Except.map]
      | bool b => simp [ih hrest, Except.map]
      | map es3 => simp [ih hrest, Except.map]
      | seq xs => simp [ih hrest, Except.map]

/-- The element at the junction of an append. -/
theorem getD_append_mid (pre : List Value) (elem : Value) (post : List Value) (d : Value) :
    (pre ++ elem :: post).getD pre.length d = elem := by
  induction pre with
  | nil => rfl
  | cons a rest ih => simpa using ih

/-- C6: a filtered step over a sequence with no element whose key field
equals the filter value fails with ErrMapNotFound; with a first matching
element the mutation proceeds into that element (or, on a terminal filtered
step over a mapping, replaces the whole element); and the concrete example:
containers[name=app].image over a sequence without name == app fails with
ErrMapNotFound. -/
theorem C6_filter_semantics :
    (∀ (fuel : Nat) (items : List Value) (seg path0 key value : List Char)
        (restPath : List (List Char)) (repl : Value),
      getFirstPathSegment seg = (path0, key, value, true) →
      NoFilterMatch items key value →
      updateSliceField (fuel + 1) items (seg :: restPath) repl =
        (items, some (.mapNotFound key value path0))) ∧
    (∀ (fuel : Nat) (pre : List Value) (es : List (List Char × Value)) (post : List Value)
        (seg path0 key value : List Char) (restPath : List (List Char)) (repl : Value),
      getFirstPathSegment seg = (path0, key, value, true) →
      NoFilterMatch pre key value →
      lookupV es key = some (Value.str value) →
      updateSliceField (fuel + 1) (pre ++ Value.map es :: post) (seg :: restPath) repl =
        ((pre ++ Value.map es :: post).set pre.length
           (updateField fuel (Value.map es) restPath repl).1,
         (updateField fuel (Value.map es) restPath repl).2)) ∧
    (updateField 10
      (Value.map [("containers".toList,
        Value.seq [Value.map [("name".toList, Value.str "web".toList)]])])
      (parsePath "containers[name=app].image".toList) (Value.str "img".toList) =
      (Value.map [("containers".toList,
        Value.seq [Value.map [("name".toList, Value.str "web".toList)]])],
       some (.mapNotFound "name".toList "app".toList "containers".toList))) := by
  refine ⟨?_, ?_, rfl⟩
  · intro fuel items seg path0 key value restPath repl hseg hnone
    simp [updateSliceField, hseg, filterFind_eq_none items key value hnone]
  · intro fuel pre es post seg path0 key value restPath repl hseg hpre hm
    simp only [updateSliceField, hseg,
      filterFind_first_match pre es post key value hpre hm, getD_append_mid, if_true]

/-- C6 witness: the scan over a singleton sequence without a name == app
element reports ErrMapNotFound, and with a matching element the mutation
descends into it. -/
theorem C6_filter_semantics_witness :
    updateSliceField 4 [Value.map [("name".toList, Value.str "web".toList)]]
      ["containers[name=app]".toList, "image".toList] (Value.str "img".toList) =
      ([Value.map [("name".toList, Value.str "web".toList)]],
        some (.mapNotFound "name".toList "app".toList "containers".toList)) ∧
    updateSliceField 4 [Value.map [("name".toList, Value.str "app".toList)]]
      ["containers[name=app]".toList, "image".toList] (Value.str "img".toList) =
      ([Value.map [("name".toList, Value.str "app".toList),
        ("image".toList, Value.str "img".toList)]], none) := by
  constructor
  · exact (C6_filter_semantics.1) 3 [Value.map [("name".toList, Value.str "web".toList)]]
      "containers[name=app]".toList "containers".toList "name".toList "app".toList
      ["image".toList] (Value.str "img".toList) rfl
      (by
        intro item hmem
        rw [List.mem_singleton] at hmem
        subst hmem
        refine ⟨_, rfl, ?_⟩
        intro v hv
        have hv2 : Value.str "web".toList = v := by
          simpa [lookupV] using hv
        subst hv2
        intro hcontra
        have : "web".toList = "app".toList := Value.str.inj hcontra
        simp at this)
  · have h := (C6_filter_semantics.2.1) 3 []
      [("name".toList, Value.str "app".toList)] []
      "containers[name=app]".toList "containers".toList "name".toList "app".toList
      ["image".toList] (Value.str "img".toList) rfl
      (by intro item hmem; cases hmem) rfl
    exact h

/-- C1: behaviour of numeric index steps at the boundary. The source checks
len(m) < index || index < 0, so index == len(m) passes the check and the
subsequent slice access panics at run time (model: goPanic) instead of
returning ErrIndexOutOfBound: segment 2 on a 2-element sequence panics, on a
3-element sequence it overwrites index 2; index 3 and index -1 on a
2-element sequence do return ErrIndexOutOfBound. Moreover the path items[2]
is not an index step at all: the filter regular expression requires '=', so
items[2] stays one literal segment and a mapping mutation creates the
literal key items[2] instead of touching the sequence. -/
theorem C1_index_out_of_bound_behaviour :
    updateSliceField 3 [Value.str ['a'], Value.str ['b']] [['2']] (Value.str ['r']) =
      ([Value.str ['a'], Value.str ['b']], some .goPanic) ∧
    updateSliceField 3 [Value.str ['a'], Value.str ['b'], Value.str ['c']] [['2']]
      (Value.str ['r']) = ([Value.str ['a'], Value.str ['b'], Value.str ['r']], none) ∧
    updateSliceField 3 [Value.str ['a'], Value.str ['b']] [['3']] (Value.str ['r']) =
      ([Value.str ['a'], Value.str ['b']], some (.indexOutOfBound 3 2)) ∧
    updateSliceField 3 [Value.str ['a'], Value.str ['b']] [['-', '1']] (Value.str ['r']) =
      ([Value.str ['a'], Value.str ['b']], some (.indexOutOfBound (-1) 2)) ∧
    parsePath "items[2]".toList = ["items[2]".toList] ∧
    updateField 3 (Value.map [("items".toList, Value.seq [Value.str ['a'], Value.str ['b']])])
      (parsePath "items[2]".toList) (Value.str ['r']) =
      (Value.map [("items".toList, Value.seq [Value.str ['a'], Value.str ['b']]),
        ("items[2]".toList, Value.str ['r'])], none) :=
  ⟨rfl, rfl, rfl, rfl, rfl, rfl⟩

/-- C2 counterexample: a boolean replacement combined with a substring
pattern is not stringified and substituted: the type switch of the source
covers the integer types and strings only, so a boolean falls to the
default case and fails with ErrPatternSubstring. -/
theorem C2_boolean_not_stringified :
    applySubstringPattern (Value.str ['a']) (Value.bool true) ['a'] =
      .error (.patternSubstring .badReplacementType) ∧
    applySubstringPattern (Value.str ['a']) (Value.bool true) ['a'] ≠
      .ok (Value.str "true".toList) := by
  refine ⟨rfl, fun h => ?_⟩
  have h2 := (rfl :
    applySubstringPattern (Value.str ['a']) (Value.bool true) ['a'] =
      Except.error (GoErr.patternSubstring .badReplacementType)).symm.trans h
  cases h2

/-- C2 amended: with a substring pattern attached, an integer replacement is
stringified and substituted, a string replacement is substituted as is, and
every other replacement value, booleans included, fails with
ErrPatternSubstring. -/
theorem C2_replacement_stringification (pat : List Char) (hpat : pat ≠ []) :
    (∀ (tgt rs : List Char) (r : Regex), compileRegex pat = some r →
      applySubstringPattern (Value.str tgt) (Value.str rs) pat =
        (if matchStr r tgt then .ok (Value.str (replaceAllString r rs tgt))
         else .error (.patternSubstring .notFoundInTarget))) ∧
    (∀ (tgt : List Char) (n : Int) (r : Regex), compileRegex pat = some r →
      applySubstringPattern (Value.str tgt) (Value.int n) pat =
        (if matchStr r tgt then .ok (Value.str (replaceAllString r (toString n).toList tgt))
         else .error (.patternSubstring .notFoundInTarget))) ∧
    (∀ (target : Value) (b : Bool),
      applySubstringPattern target (Value.bool b) pat =
        .error (.patternSubstring .badReplacementType)) ∧
    (∀ target, applySubstringPattern target Value.null pat =
        .error (.patternSubstring .badReplacementType)) ∧
    (∀ target es, applySubstringPattern target (Value.map es) pat =
        .error (.patternSubstring .badReplacementType)) ∧
    (∀ target xs, applySubstringPattern target (Value.seq xs) pat =
        .error (.patternSubstring .badReplacementType)) := by
  refine ⟨?_, ?_, ?_, ?_, ?_, ?_⟩
  · intro tgt rs r hcomp
    simp [applySubstringPattern, replacementString, hpat, hcomp]
  · intro tgt n r hcomp
    simp [applySubstringPattern, replacementString, hpat, hcomp]
  · intro target b
    simp [applySubstringPattern, replacementString, hpat]
  · intro target
    simp [applySubstringPattern, replacementString, hpat]
  · intro target es
    simp [applySubstringPattern, replacementString, hpat]
  · intro target xs
    simp [applySubstringPattern, replacementString, hpat]

/-- C2 witness: pattern a on target ab with integer replacement 5 gives 5b;
with boolean replacement it fails. -/
theorem C2_replacement_stringification_witness :
    applySubstringPattern (Value.str "ab".toList) (Value.int 5) ['a'] =
      .ok (Value.str "5b".toList) ∧
    applySubstringPattern (Value.str "ab".toList) (Value.bool true) ['a'] =
      .error (.patternSubstring .badReplacementType) := by
  have h := C2_replacement_stringification ['a'] (by decide)
  constructor
  · have h2 := h.2.1 "ab".toList 5 (Regex.seq (Regex.char 'a') Regex.eps) rfl
    rw [h2]
    rfl
  · exact h.2.2.1 (Value.str "ab".toList) true

/-- splitChar never returns an empty list of parts. -/
theorem splitChar_ne_nil (c : Char) (s : List Char) : splitChar c s ≠ [] := by
  cases s with
  | nil => simp [splitChar]
  | cons x xs =>
    rw [splitChar]
    cases h : splitChar c xs with
    | nil => simp
    | cons h2 t =>
      dsimp only
      split <;> simp

/-- A separator-free string is a single part. -/
theorem splitChar_eq_single (c : Char) (s : List Char) (h : ∀ x ∈ s, x ≠ c) :
    splitChar c s = [s] := by
  induction s with
  | nil => rfl
  | cons x xs ih =>
    rw [splitChar]
    rw [ih (fun y hy => h y (List.mem_cons_of_mem x hy))]
    dsimp only
    rw [if_neg (h x (List.mem_cons_self x xs))]

/-- Splitting at a leading separator yields a leading empty part. -/
theorem splitChar_cons_sep (c : Char) (s : List Char) :
    splitChar c (c :: s) = [] :: splitChar c s := by
  rw [splitChar]
  cases h : splitChar c s with
  | nil => exact absurd h (splitChar_ne_nil c s)
  | cons h2 t => simp

/-- Joining undoes splitting. -/
theorem joinChar_splitChar (c : Char) (s : List Char) :
    joinChar c (splitChar c s) = s := by
  induction s with
  | nil => rfl
  | cons x xs ih =>
    rw [splitChar]
    cases h : splitChar c xs with
    | nil => exact absurd h (splitChar_ne_nil c xs)
    | cons h2 t =>
      rw [h] at ih
      dsimp only
      by_cases hx : x = c
      · rw [if_pos hx, hx]
        cases t with
        | nil =>
          simp only [joinChar] at ih ⊢
          rw [ih]
          simp
        | cons t0 ts =>
          simp only [joinChar] at ih ⊢
          rw [ih]
          simp
      · rw [if_neg hx]
        cases t with
        | nil =>
          simp only [joinChar] at ih ⊢
          rw [ih]
        | cons t0 ts =>
          simp only [joinChar] at ih ⊢
          rw [List.cons_append, ih]

/-- Splitting after a separator-free prefix. -/
theorem splitChar_append (c : Char) (a b : List Char) (h : ∀ x ∈ a, x ≠ c) :
    splitChar c (a ++ b) = (a ++ (splitChar c b).headI) :: (splitChar c b).tail := by
  induction a with
  | nil =>
    simp only [List.nil_append]
    cases hb : splitChar c b with
    | nil => exact absurd hb (splitChar_ne_nil c b)
    | cons h2 t => simp
  | cons x xs ih =>
    rw [List.cons_append, splitChar]
    rw [ih (fun y hy => h y (List.mem_cons_of_mem x hy))]
    dsimp only
    rw [if_neg (h x (List.mem_cons_self x xs))]
    simp

/-- Splitting a join of separator-free chunks recovers the chunks. -/
theorem splitChar_joinChar (c : Char) (xs : List (List Char))
    (hne : xs ≠ []) (h : ∀ x ∈ xs, ∀ ch ∈ x, ch ≠ c) :
    splitChar c (joinChar c xs) = xs := by
  induction xs with
  | nil => exact absurd rfl hne
  | cons x rest ih =>
    cases rest with
    | nil =>
      simp only [joinChar]
      exact splitChar_eq_single c x (h x (List.mem_cons_self x []))
    | cons y ys =>
      have hx : ∀ ch ∈ x, ch ≠ c := h x (List.mem_cons_self _ _)
      have hrest : ∀ z ∈ y :: ys, ∀ ch ∈ z, ch ≠ c :=
        fun z hz => h z (List.mem_cons_of_mem _ hz)
      simp only [joinChar]
      rw [splitChar_append c x (c :: joinChar c (y :: ys)) hx]
      rw [splitChar_cons_sep]
      rw [ih (by simp) hrest]
      simp

/-- protectDots distributes over append. -/
theorem protectDots_append (a b : List Char) :
    protectDots (a ++ b) = protectDots a ++ protectDots b := by
  simp [protectDots]

/-- A character of a protected string is a dollar or a non-dot character of
the original. -/
theorem mem_protectDots (a : List Char) (x : Char) (hx : x ∈ protectDots a) :
    x = '$' ∨ (x ∈ a ∧ x ≠ '.') := by
  simp only [protectDots, List.mem_flatMap] at hx
  obtain ⟨c, hc, hxc⟩ := hx
  by_cases hdot : c = '.'
  · rw [if_pos hdot] at hxc
    left
    simp only [dotReplacer, List.mem_cons, List.not_mem_nil, or_false] at hxc
    rcases hxc with h | h | h | h <;> exact h
  · rw [if_neg hdot] at hxc
    rw [List.mem_singleton] at hxc
    subst hxc
    exact Or.inr ⟨hc, hdot⟩



/-- Unfolding restoreDots at a non-dollar head. -/
theorem restoreDots_cons_ne (c : Char) (rest : List Char) (h : c ≠ '$') :
    restoreDots (c :: rest) = c :: restoreDots rest := by
  rw [restoreDots.eq_def]
  split
  · rename_i heq
    cases heq
  · rename_i heq
    injection heq with h1 h2
    exact absurd h1 h
  · rename_i heq
    injection heq with h1 h2
    rw [h1, h2]

/-- Unfolding restoreDots at the sentinel. -/
theorem restoreDots_sentinel (rest : List Char) :
    restoreDots ('$' :: '$' :: '$' :: '$' :: rest) = '.' :: restoreDots rest := by
  rfl

/-- restoreDots passes a dollar-free prefix through. -/
theorem restoreDots_append_noDollar (a b : List Char) (h : ∀ x ∈ a, x ≠ '$') :
    restoreDots (a ++ b) = a ++ restoreDots b := by
  induction a with
  | nil => rfl
  | cons x xs ih =>
    rw [List.cons_append, restoreDots_cons_ne x (xs ++ b) (h x (List.mem_cons_self x xs))]
    rw [ih (fun y hy => h y (List.mem_cons_of_mem x hy))]
    rfl

/-- restoreDots is the identity on dollar-free strings. -/
theorem restoreDots_id (s : List Char) (h : ∀ x ∈ s, x ≠ '$') :
    restoreDots s = s := by
  have h2 := restoreDots_append_noDollar s [] h
  simpa [show restoreDots [] = [] from rfl] using h2

/-- restoreDots undoes protectDots on a dollar-free string, leaving the
remainder intact. -/
theorem restoreDots_protectDots (a : List Char) (ha : ∀ x ∈ a, x ≠ '$') :
    ∀ b, restoreDots (protectDots a ++ b) = a ++ restoreDots b := by
  induction a with
  | nil => intro b; rfl
  | cons x xs ih =>
    intro b
    by_cases hdot : x = '.'
    · subst hdot
      show restoreDots (('.' :: xs).flatMap (fun c => if c = '.' then dotReplacer else [c]) ++ b)
        = '.' :: xs ++ restoreDots b
      rw [List.flatMap_cons, if_pos rfl]
      show restoreDots (('$' :: '$' :: '$' :: '$' :: protectDots xs) ++ b)
        = '.' :: xs ++ restoreDots b
      rw [List.cons_append, List.cons_append, List.cons_append, List.cons_append]
      rw [restoreDots_sentinel]
      rw [ih (fun y hy => ha y (List.mem_cons_of_mem _ hy)) b]
      simp
    · show restoreDots ((x :: xs).flatMap (fun c => if c = '.' then dotReplacer else [c]) ++ b)
        = x :: xs ++ restoreDots b
      rw [List.flatMap_cons, if_neg hdot]
      rw [List.singleton_append, List.cons_append]
      rw [restoreDots_cons_ne x _ (ha x (List.mem_cons_self x xs))]
      show x :: restoreDots (protectDots xs ++ b) = x :: xs ++ restoreDots b
      rw [ih (fun y hy => ha y (List.mem_cons_of_mem _ hy)) b]
      simp



/-- joinChar on at least two parts. -/
theorem joinChar_cons_cons (c : Char) (x y : List Char) (ys : List (List Char)) :
    joinChar c (x :: y :: ys) = x ++ c :: joinChar c (y :: ys) := rfl

/-- joinChar pulls an append out of the head part. -/
theorem joinChar_cons_append (c : Char) (a h : List Char) (t : List (List Char)) :
    joinChar c ((a ++ h) :: t) = a ++ joinChar c (h :: t) := by
  cases t with
  | nil => rfl
  | cons t0 ts =>
    simp only [joinChar]
    simp [List.append_assoc]

/-- contains is false on a list avoiding the character. -/
theorem contains_eq_false_of (c : Char) (s : List Char) (h : ∀ x ∈ s, x ≠ c) :
    s.contains c = false := by
  induction s with
  | nil => rfl
  | cons x xs ih =>
    have hx : x ≠ c := h x (List.mem_cons_self x xs)
    have hxs := ih (fun y hy => h y (List.mem_cons_of_mem x hy))
    simp only [List.contains_cons, hxs, Bool.or_false]
    simp only [beq_eq_false_iff_ne, ne_eq]
    exact fun hc => hx hc.symm

/-- contains is true when the character occurs. -/
theorem contains_eq_true_of (c : Char) (s : List Char) (h : c ∈ s) :
    s.contains c = true := by
  induction s with
  | nil => cases h
  | cons x xs ih =>
    rcases List.mem_cons.mp h with heq | hmem
    · simp [List.contains_cons, heq]
    · simp only [List.contains_cons, ih hmem, Bool.or_true]

/-- protectPart leaves a part without closing bracket untouched. -/
theorem protectPart_no_rbracket (part : List Char) (h : ∀ x ∈ part, x ≠ ']') :
    protectPart part = part := by
  rw [protectPart, contains_eq_false_of ']' part h]
  simp

/-- protectPart protects exactly the text before the first closing bracket. -/
theorem protectPart_with_rbracket (kv tail : List Char)
    (hkv : ∀ x ∈ kv, x ≠ ']') (htail : ∀ x ∈ tail, x ≠ ']') :
    protectPart (kv ++ ']' :: tail) = protectDots kv ++ ']' :: tail := by
  rw [protectPart, contains_eq_true_of ']' (kv ++ ']' :: tail) (by simp)]
  rw [if_pos rfl]
  rw [splitChar_append ']' kv (']' :: tail) hkv]
  rw [splitChar_cons_sep]
  rw [splitChar_eq_single ']' tail htail]
  dsimp only [List.headI, List.tail]
  rw [List.append_nil]
  simp [joinChar]



/-- The first phase of parsePath as a function: split on opening brackets,
protect the filter text of each part, and re-join. -/
def pStage (s : List Char) : List Char :=
  joinChar '[' ((splitChar '[' s).map protectPart)

/-- No closing bracket occurs before the first opening bracket of s. -/
def noRbHead (s : List Char) : Prop :=
  ∀ x ∈ (splitChar '[' s).headI, x ≠ ']'

/-- noRbHead for a bracket-free string without closing brackets. -/
theorem noRbHead_of_no_brackets (s : List Char) (h : ∀ x ∈ s, x ≠ '[' ∧ x ≠ ']') :
    noRbHead s := by
  intro x hx
  rw [splitChar_eq_single '[' s (fun y hy => (h y hy).1)] at hx
  exact (h x hx).2

/-- noRbHead after a clean prefix. -/
theorem noRbHead_append (a b : List Char) (ha : ∀ x ∈ a, x ≠ '[' ∧ x ≠ ']')
    (hb : noRbHead b) : noRbHead (a ++ b) := by
  intro x hx
  rw [splitChar_append '[' a b (fun y hy => (ha y hy).1)] at hx
  cases hsb : splitChar '[' b with
  | nil => exact absurd hsb (splitChar_ne_nil '[' b)
  | cons h t =>
    rw [hsb] at hx
    dsimp only [List.headI] at hx
    rcases List.mem_append.mp hx with hxa | hxh
    · exact (ha x hxa).2
    · apply hb
      rw [hsb]
      exact hxh

/-- noRbHead when an opening bracket follows a clean prefix. -/
theorem noRbHead_append_lb (a b : List Char) (ha : ∀ x ∈ a, x ≠ '[' ∧ x ≠ ']') :
    noRbHead (a ++ '[' :: b) := by
  intro x hx
  rw [splitChar_append '[' a ('[' :: b) (fun y hy => (ha y hy).1)] at hx
  rw [splitChar_cons_sep] at hx
  dsimp only [List.headI] at hx
  rw [List.append_nil] at hx
  exact (ha x hx).2

/-- pStage passes a clean prefix through. -/
theorem pStage_clean_front (a b : List Char)
    (ha : ∀ x ∈ a, x ≠ '[' ∧ x ≠ ']') (hb : noRbHead b) :
    pStage (a ++ b) = a ++ pStage b := by
  rw [pStage, pStage, splitChar_append '[' a b (fun x hx => (ha x hx).1)]
  cases hsb : splitChar '[' b with
  | nil => exact absurd hsb (splitChar_ne_nil '[' b)
  | cons h t =>
    have hb2 : ∀ x ∈ (splitChar '[' b).headI, x ≠ ']' := hb
    rw [hsb] at hb2
    dsimp only [List.headI, List.tail] at hb2 ⊢
    rw [List.map_cons, List.map_cons]
    have hah : ∀ x ∈ a ++ h, x ≠ ']' := by
      intro x hx
      rcases List.mem_append.mp hx with hxa | hxh
      · exact (ha x hxa).2
      · exact hb2 x hxh
    rw [protectPart_no_rbracket (a ++ h) hah]
    rw [protectPart_no_rbracket h hb2]
    exact joinChar_cons_append '[' a h (t.map protectPart)

/-- pStage protects the filter text of a leading bracketed filter and
continues behind its closing bracket. -/
theorem pStage_filtered_head (name kv tail : List Char)
    (hname : ∀ x ∈ name, x ≠ '[' ∧ x ≠ ']')
    (hkv : ∀ x ∈ kv, x ≠ '[' ∧ x ≠ ']')
    (htail : noRbHead tail) :
    pStage (name ++ '[' :: (kv ++ ']' :: tail)) =
      name ++ '[' :: (protectDots kv ++ ']' :: pStage tail) := by
  rw [pStage, pStage]
  rw [splitChar_append '[' name ('[' :: (kv ++ ']' :: tail)) (fun x hx => (hname x hx).1)]
  rw [splitChar_cons_sep]
  have hX : kv ++ ']' :: tail = (kv ++ [']']) ++ tail := by simp
  rw [hX]
  rw [splitChar_append '[' (kv ++ [']']) tail
    (by
      intro x hx
      rcases List.mem_append.mp hx with hxa | hxh
      · exact (hkv x hxa).1
      · rw [List.mem_singleton] at hxh
        subst hxh
        intro hc
        cases hc)]
  cases hsb : splitChar '[' tail with
  | nil => exact absurd hsb (splitChar_ne_nil '[' tail)
  | cons h t =>
    have htail2 : ∀ x ∈ (splitChar '[' tail).headI, x ≠ ']' := htail
    rw [hsb] at htail2
    dsimp only [List.headI] at htail2
    dsimp only [List.headI, List.tail]
    rw [List.append_nil, List.map_cons, List.map_cons, List.map_cons]
    rw [protectPart_no_rbracket name (fun x hx => (hname x hx).2)]
    have hassoc : (kv ++ [']']) ++ h = kv ++ ']' :: h := by simp
    rw [hassoc]
    have hh : ∀ x ∈ h, x ≠ ']' := htail2
    rw [protectPart_with_rbracket kv h (fun x hx => (hkv x hx).2) hh]
    rw [protectPart_no_rbracket h hh]
    rw [joinChar_cons_cons]
    rw [show protectDots kv ++ ']' :: h = (protectDots kv ++ [']']) ++ h by simp]
    rw [joinChar_cons_append '[' (protectDots kv ++ [']']) h (t.map protectPart)]
    simp



/-! ## The structured path grammar of target path expressions

A path expression is written down from segments (a field name, optionally
with a [key=value] filter) and an optional trailing substring pattern; C4
states that parsePath recovers exactly these segments, dots inside filter
values and patterns included. -/

/-- One segment of a structured path: a name and an optional filter. -/
structure PathSeg where
  name : List Char
  filter : Option (List Char × List Char)

/-- Characters allowed in names, filter keys and values, and patterns:
non-whitespace and none of the structural characters. -/
def goodChar (c : Char) : Bool :=
  !c.isWhitespace && c != '[' && c != ']' && c != '%' && c != '$'

/-- A field name: non-empty, good characters, no dots. -/
def goodName (s : List Char) : Bool :=
  !s.isEmpty && s.all (fun c => goodChar c && c != '.')

/-- A filter key, filter value or pattern: non-empty, good characters
(dots allowed). -/
def goodVal (s : List Char) : Bool :=
  !s.isEmpty && s.all goodChar

/-- A well-formed segment. -/
def goodSeg (s : PathSeg) : Bool :=
  goodName s.name &&
    match s.filter with
    | none => true
    | some kv => goodVal kv.1 && goodVal kv.2

/-- The string of one segment. -/
def segString (s : PathSeg) : List Char :=
  match s.filter with
  | none => s.name
  | some kv => s.name ++ '[' :: ((kv.1 ++ '=' :: kv.2) ++ [']'])

/-- The string of one segment with protected filter dots. -/
def segStringP (s : PathSeg) : List Char :=
  match s.filter with
  | none => s.name
  | some kv => s.name ++ '[' :: (protectDots (kv.1 ++ '=' :: kv.2) ++ [']'])

/-- The rendered path expression without pattern suffix. -/
def renderCore (segs : List PathSeg) : List Char :=
  joinChar '.' (segs.map segString)

/-- The rendered path expression with protected filter dots. -/
def renderCoreP (segs : List PathSeg) : List Char :=
  joinChar '.' (segs.map segStringP)

/-- Unfolded facts of goodChar. -/
theorem goodChar_facts (c : Char) (h : goodChar c = true) :
    ¬c.isWhitespace ∧ c ≠ '[' ∧ c ≠ ']' ∧ c ≠ '%' ∧ c ≠ '$' := by
  simp only [goodChar, Bool.and_eq_true, bne_iff_ne, ne_eq, Bool.not_eq_true'] at h
  obtain ⟨⟨⟨⟨h1, h2⟩, h3⟩, h4⟩, h5⟩ := h
  exact ⟨by simp [h1], h2, h3, h4, h5⟩

/-- Unfolded facts of goodName. -/
theorem goodName_facts (s : List Char) (h : goodName s = true) :
    s ≠ [] ∧ ∀ x ∈ s, goodChar x = true ∧ x ≠ '.' := by
  simp only [goodName, Bool.and_eq_true, List.all_eq_true] at h
  refine ⟨?_, ?_⟩
  · intro hc
    subst hc
    simp at h
  · intro x hx
    have h2 := h.2 x hx
    simp only [Bool.and_eq_true, bne_iff_ne, ne_eq] at h2
    exact ⟨h2.1, h2.2⟩

/-- Unfolded facts of goodVal. -/
theorem goodVal_facts (s : List Char) (h : goodVal s = true) :
    s ≠ [] ∧ ∀ x ∈ s, goodChar x = true := by
  simp only [goodVal, Bool.and_eq_true, List.all_eq_true] at h
  refine ⟨?_, h.2⟩
  intro hc
  subst hc
  simp at h

/-- A good name is free of structural characters and dots. -/
theorem name_clean (s : List Char) (h : goodName s = true) :
    ∀ x ∈ s, x ≠ '[' ∧ x ≠ ']' := by
  intro x hx
  have hf := (goodName_facts s h).2 x hx
  have hg := goodChar_facts x hf.1
  exact ⟨hg.2.1, hg.2.2.1⟩

/-- A filter text k=v built from good values is free of brackets. -/
theorem kv_clean (k v : List Char) (hk : goodVal k = true) (hv : goodVal v = true) :
    ∀ x ∈ k ++ '=' :: v, x ≠ '[' ∧ x ≠ ']' := by
  intro x hx
  rcases List.mem_append.mp hx with hxa | hxb
  · have hg := goodChar_facts x ((goodVal_facts k hk).2 x hxa)
    exact ⟨hg.2.1, hg.2.2.1⟩
  · rcases List.mem_cons.mp hxb with heq | hmem
    · subst heq
      exact ⟨(by decide), (by decide)⟩
    · have hg := goodChar_facts x ((goodVal_facts v hv).2 x hmem)
      exact ⟨hg.2.1, hg.2.2.1⟩

/-- renderCore of at least two segments. -/
theorem renderCore_cons_cons (s1 s2 : PathSeg) (rest : List PathSeg) :
    renderCore (s1 :: s2 :: rest) = segString s1 ++ '.' :: renderCore (s2 :: rest) := rfl

/-- renderCoreP of at least two segments. -/
theorem renderCoreP_cons_cons (s1 s2 : PathSeg) (rest : List PathSeg) :
    renderCoreP (s1 :: s2 :: rest) = segStringP s1 ++ '.' :: renderCoreP (s2 :: rest) := rfl

/-- No closing bracket occurs before the first opening bracket of a
rendered path followed by a bracket-free suffix. -/
theorem noRbHead_render (segs : List PathSeg) (suffix : List Char)
    (hgood : ∀ s ∈ segs, goodSeg s = true)
    (hsuf : ∀ x ∈ suffix, x ≠ '[' ∧ x ≠ ']') :
    noRbHead (renderCore segs ++ suffix) := by
  induction segs with
  | nil =>
    show noRbHead ([] ++ suffix)
    rw [List.nil_append]
    exact noRbHead_of_no_brackets suffix hsuf
  | cons seg rest ih =>
    have hseg : goodSeg seg = true := hgood seg (List.mem_cons_self _ _)
    have hnm : goodName seg.name = true := by
      simp only [goodSeg, Bool.and_eq_true] at hseg
      exact hseg.1
    have hnc := name_clean seg.name hnm
    cases hfil : seg.filter with
    | some kv =>
      cases rest with
      | nil =>
        have hshape : renderCore [seg] ++ suffix =
            seg.name ++ '[' :: (((kv.1 ++ '=' :: kv.2) ++ [']']) ++ suffix) := by
          simp [renderCore, segString, hfil, joinChar, List.append_assoc]
        rw [hshape]
        exact noRbHead_append_lb seg.name _ hnc
      | cons r2 rs =>
        have hshape : renderCore (seg :: r2 :: rs) ++ suffix =
            seg.name ++ '[' :: (((kv.1 ++ '=' :: kv.2) ++ [']']) ++
              ('.' :: (renderCore (r2 :: rs) ++ suffix))) := by
          rw [renderCore_cons_cons]
          simp [segString, hfil, List.append_assoc]
        rw [hshape]
        exact noRbHead_append_lb seg.name _ hnc
    | none =>
      cases rest with
      | nil =>
        have hshape : renderCore [seg] ++ suffix = seg.name ++ suffix := by
          simp [renderCore, segString, hfil, joinChar]
        rw [hshape]
        exact noRbHead_append seg.name suffix hnc (noRbHead_of_no_brackets suffix hsuf)
      | cons r2 rs =>
        have hshape : renderCore (seg :: r2 :: rs) ++ suffix =
            (seg.name ++ ['.']) ++ (renderCore (r2 :: rs) ++ suffix) := by
          rw [renderCore_cons_cons]
          simp [segString, hfil]
        rw [hshape]
        refine noRbHead_append (seg.name ++ ['.']) _ ?_ (ih (fun s hs => hgood s (List.mem_cons_of_mem _ hs)))
        intro x hx
        rcases List.mem_append.mp hx with hxa | hxb
        · exact hnc x hxa
        · rw [List.mem_singleton] at hxb
          subst hxb
          exact ⟨(by decide), (by decide)⟩



/-- pStage on a bracket-free string is the identity. -/
theorem pStage_clean (s : List Char) (h : ∀ x ∈ s, x ≠ '[' ∧ x ≠ ']') :
    pStage s = s := by
  rw [pStage, splitChar_eq_single '[' s (fun x hx => (h x hx).1)]
  rw [List.map_singleton, protectPart_no_rbracket s (fun x hx => (h x hx).2)]
  rfl

/-- The protection stage of parsePath protects exactly the dots of the
filter texts of a rendered path, leaving the bracket-free suffix alone. -/
theorem pStage_render (segs : List PathSeg) (suffix : List Char)
    (hgood : ∀ s ∈ segs, goodSeg s = true)
    (hsuf : ∀ x ∈ suffix, x ≠ '[' ∧ x ≠ ']') :
    pStage (renderCore segs ++ suffix) = renderCoreP segs ++ suffix := by
  induction segs with
  | nil =>
    exact pStage_clean suffix hsuf
  | cons seg rest ih =>
    have hseg : goodSeg seg = true := hgood seg (List.mem_cons_self _ _)
    have hnm : goodName seg.name = true := by
      simp only [goodSeg, Bool.and_eq_true] at hseg
      exact hseg.1
    have hnc := name_clean seg.name hnm
    have ihr := ih (fun s hs => hgood s (List.mem_cons_of_mem _ hs))
    cases hfil : seg.filter with
    | none =>
      cases rest with
      | nil =>
        have hshape : renderCore [seg] ++ suffix = seg.name ++ suffix := by
          simp [renderCore, segString, hfil, joinChar]
        have hshapeP : renderCoreP [seg] ++ suffix = seg.name ++ suffix := by
          simp [renderCoreP, segStringP, hfil, joinChar]
        rw [hshape, hshapeP]
        rw [pStage_clean_front seg.name suffix hnc (noRbHead_of_no_brackets suffix hsuf)]
        rw [pStage_clean suffix hsuf]
      | cons r2 rs =>
        have hshape : renderCore (seg :: r2 :: rs) ++ suffix =
            (seg.name ++ ['.']) ++ (renderCore (r2 :: rs) ++ suffix) := by
          rw [renderCore_cons_cons]
          simp [segString, hfil]
        have hshapeP : renderCoreP (seg :: r2 :: rs) ++ suffix =
            (seg.name ++ ['.']) ++ (renderCoreP (r2 :: rs) ++ suffix) := by
          rw [renderCoreP_cons_cons]
          simp [segStringP, hfil]
        have hdotclean : ∀ x ∈ seg.name ++ ['.'], x ≠ '[' ∧ x ≠ ']' := by
          intro x hx
          rcases List.mem_append.mp hx with hxa | hxb
          · exact hnc x hxa
          · rw [List.mem_singleton] at hxb
            subst hxb
            exact ⟨(by decide), (by decide)⟩
        rw [hshape, hshapeP]
        rw [pStage_clean_front (seg.name ++ ['.']) _ hdotclean
          (noRbHead_render (r2 :: rs) suffix (fun s hs => hgood s (List.mem_cons_of_mem _ hs)) hsuf)]
        rw [ihr]
    | some kv =>
      have hkv : goodVal kv.1 = true ∧ goodVal kv.2 = true := by
        simp only [goodSeg, hfil, Bool.and_eq_true] at hseg
        exact hseg.2
      have hkvc := kv_clean kv.1 kv.2 hkv.1 hkv.2
      cases rest with
      | nil =>
        have hshape : renderCore [seg] ++ suffix =
            seg.name ++ '[' :: ((kv.1 ++ '=' :: kv.2) ++ ']' :: suffix) := by
          simp [renderCore, segString, hfil, joinChar, List.append_assoc]
        have hshapeP : renderCoreP [seg] ++ suffix =
            seg.name ++ '[' :: (protectDots (kv.1 ++ '=' :: kv.2) ++ ']' :: suffix) := by
          simp [renderCoreP, segStringP, hfil, joinChar, List.append_assoc]
        rw [hshape, hshapeP]
        rw [pStage_filtered_head seg.name (kv.1 ++ '=' :: kv.2) suffix hnc hkvc
          (noRbHead_of_no_brackets suffix hsuf)]
        rw [pStage_clean suffix hsuf]
      | cons r2 rs =>
        have hshape : renderCore (seg :: r2 :: rs) ++ suffix =
            seg.name ++ '[' :: ((kv.1 ++ '=' :: kv.2) ++ ']' ::
              ('.' :: (renderCore (r2 :: rs) ++ suffix))) := by
          rw [renderCore_cons_cons]
          simp [segString, hfil, List.append_assoc]
        have hshapeP : renderCoreP (seg :: r2 :: rs) ++ suffix =
            seg.name ++ '[' :: (protectDots (kv.1 ++ '=' :: kv.2) ++ ']' ::
              ('.' :: (renderCoreP (r2 :: rs) ++ suffix))) := by
          rw [renderCoreP_cons_cons]
          simp [segStringP, hfil, List.append_assoc]
        have hdot : noRbHead ('.' :: (renderCore (r2 :: rs) ++ suffix)) := by
          have h2 := noRbHead_append ['.'] (renderCore (r2 :: rs) ++ suffix)
            (by intro x hx; rw [List.mem_singleton] at hx; subst hx; exact ⟨(by decide), (by decide)⟩)
            (noRbHead_render (r2 :: rs) suffix (fun s hs => hgood s (List.mem_cons_of_mem _ hs)) hsuf)
          simpa using h2
        rw [hshape, hshapeP]
        rw [pStage_filtered_head seg.name (kv.1 ++ '=' :: kv.2)
          ('.' :: (renderCore (r2 :: rs) ++ suffix)) hnc hkvc hdot]
        have hstep : pStage ('.' :: (renderCore (r2 :: rs) ++ suffix)) =
            '.' :: (renderCoreP (r2 :: rs) ++ suffix) := by
          have h2 := pStage_clean_front ['.'] (renderCore (r2 :: rs) ++ suffix)
            (by intro x hx; rw [List.mem_singleton] at hx; subst hx; exact ⟨(by decide), (by decide)⟩)
            (noRbHead_render (r2 :: rs) suffix (fun s hs => hgood s (List.mem_cons_of_mem _ hs)) hsuf)
          rw [List.singleton_append] at h2
          rw [h2, ihr]
          rfl
        rw [hstep]



/-- findIdx? finds the first satisfying element after a failing prefix. -/
theorem findIdx_append_first (p : Char → Bool) (a : List Char) (b0 : Char)
    (bs : List Char) (ha : ∀ x ∈ a, p x = false) (hb : p b0 = true) :
    (a ++ b0 :: bs).findIdx? p = some a.length := by
  induction a with
  | nil =>
    rw [List.nil_append, List.findIdx?_cons, List.findIdx?_succ, if_pos hb]
    rfl
  | cons x xs ih =>
    rw [List.cons_append, List.findIdx?_cons, List.findIdx?_succ]
    rw [if_neg (by rw [ha x (List.mem_cons_self x xs)]; simp)]
    rw [ih (fun y hy => ha y (List.mem_cons_of_mem x hy))]
    rfl

/-- extractSubstringPattern on a whitespace-free string without a trailing
percent sign finds no match. -/
theorem extract_no_percent_end (s : List Char) (hws : ∀ x ∈ s, ¬x.isWhitespace)
    (hlast : s.getLast? ≠ some '%') : extractSubstringPattern s = (s, []) := by
  rw [extractSubstringPattern]
  have hrun : (s.reverse.takeWhile (fun c => !c.isWhitespace)).reverse = s := by
    rw [List.takeWhile_eq_self_iff.mpr
      (by intro x hx; rw [List.mem_reverse] at hx; simp [hws x hx])]
    exact List.reverse_reverse s
  rw [hrun]
  split
  · rename_i heq
    exact absurd heq hlast
  · rfl

/-- extractSubstringPattern splits off a trailing percent-delimited pattern
from a whitespace-free, percent-free body. -/
theorem extract_pattern (body q : List Char)
    (hbody_ne : body ≠ []) (hq_ne : q ≠ [])
    (hbody : ∀ x ∈ body, ¬x.isWhitespace ∧ x ≠ '%')
    (hq : ∀ x ∈ q, ¬x.isWhitespace ∧ x ≠ '%') :
    extractSubstringPattern (body ++ '%' :: (q ++ ['%'])) = (body, q) := by
  have hsform : body ++ '%' :: (q ++ ['%']) = (body ++ '%' :: q) ++ ['%'] := by simp
  rw [extractSubstringPattern]
  have hrun : ((body ++ '%' :: (q ++ ['%'])).reverse.takeWhile
      (fun c => !c.isWhitespace)).reverse = body ++ '%' :: (q ++ ['%']) := by
    rw [List.takeWhile_eq_self_iff.mpr ?hall]
    · exact List.reverse_reverse _
    case hall =>
      intro x hx
      rw [List.mem_reverse] at hx
      rcases List.mem_append.mp hx with hxb | hxr
      · simp [(hbody x hxb).1]
      · rcases List.mem_cons.mp hxr with heq | hxq
        · subst heq; decide
        · rcases List.mem_append.mp hxq with hxq2 | hxp
          · simp [(hq x hxq2).1]
          · rw [List.mem_singleton] at hxp; subst hxp; decide
  rw [hrun]
  have hlast : (body ++ '%' :: (q ++ ['%'])).getLast? = some '%' := by
    rw [hsform]
    exact List.getLast?_concat _
  have hdrop : (body ++ '%' :: (q ++ ['%'])).dropLast = body ++ '%' :: q := by
    rw [hsform]
    exact List.dropLast_concat
  split
  · rw [hdrop]
    dsimp only
    have hrev : (body ++ '%' :: q).reverse = q.reverse ++ '%' :: body.reverse := by
      simp
    rw [hrev]
    cases hqr : q.reverse with
    | nil => exact absurd (by simpa using congrArg List.reverse hqr) hq_ne
    | cons w ws =>
      have hdrop1 : ((w :: ws) ++ '%' :: body.reverse).drop 1 = ws ++ '%' :: body.reverse := by
        rfl
      rw [hdrop1]
      have hws_ne : ∀ x ∈ ws, (decide (x = '%')) = false := by
        intro x hx
        have hxq : x ∈ q := by
          rw [← List.mem_reverse, hqr]
          exact List.mem_cons_of_mem w hx
        simp [(hq x hxq).2]
      rw [findIdx_append_first _ ws '%' body.reverse hws_ne (by simp)]
      dsimp only
      have hlq : ws.length + 1 = q.length := by
        have h2 := congrArg List.length hqr
        simp at h2
        omega
      have hlen : (body ++ '%' :: q).length = body.length + 1 + q.length := by
        simp
        omega
      have hbpos : 1 ≤ body.length := by
        cases body with
        | nil => exact absurd rfl hbody_ne
        | cons b bs => simp
      have hidx : (body ++ '%' :: q).length - 1 - (ws.length + 1) = body.length := by
        rw [hlen, ← hlq]
        omega
      rw [hidx]
      rw [if_pos hbpos]
      have htake : (body ++ '%' :: q).take body.length = body := List.take_left body ('%' :: q)
      have hdrop2 : (body ++ '%' :: q).drop (body.length + 1) = q := by
        have h2 : body ++ '%' :: q = (body ++ ['%']) ++ q := by simp
        rw [h2]
        have h3 : (body ++ ['%']).length = body.length + 1 := by simp
        rw [← h3]
        exact List.drop_left _ _
      rw [htake, hdrop2]
  · rename_i x0 hcontra
    exact absurd hlast hcontra



/-- getLast? behind a non-empty right append. -/
theorem getLast_append_ne (l1 l2 : List Char) (h : l2 ≠ []) :
    (l1 ++ l2).getLast? = l2.getLast? := by
  rw [List.getLast?_append]
  cases hl : l2.getLast? with
  | none => exact absurd (List.getLast?_eq_none_iff.mp hl) h
  | some c => rfl

/-- A character of a joined list is the separator or from a part. -/
theorem mem_joinChar (c : Char) (xs : List (List Char)) (x : Char)
    (hx : x ∈ joinChar c xs) : x = c ∨ ∃ l ∈ xs, x ∈ l := by
  induction xs with
  | nil => cases hx
  | cons a rest ih =>
    cases rest with
    | nil =>
      simp only [joinChar] at hx
      exact Or.inr ⟨a, List.mem_singleton.mpr rfl, hx⟩
    | cons b bs =>
      rw [joinChar_cons_cons] at hx
      rcases List.mem_append.mp hx with hxa | hxr
      · exact Or.inr ⟨a, List.mem_cons_self _ _, hxa⟩
      · rcases List.mem_cons.mp hxr with heq | hxj
        · exact Or.inl heq
        · rcases ih hxj with heq | ⟨l, hl, hxl⟩
          · exact Or.inl heq
          · exact Or.inr ⟨l, List.mem_cons_of_mem _ hl, hxl⟩

/-- The characters that may occur in a protected segment string. -/
theorem mem_segStringP (s : PathSeg) (hs : goodSeg s = true) (x : Char)
    (hx : x ∈ segStringP s) :
    goodChar x = true ∨ x = '[' ∨ x = ']' ∨ x = '=' ∨ x = '$' := by
  have hnm : goodName s.name = true := by
    simp only [goodSeg, Bool.and_eq_true] at hs
    exact hs.1
  cases hfil : s.filter with
  | none =>
    rw [segStringP, hfil] at hx
    exact Or.inl ((goodName_facts s.name hnm).2 x hx).1
  | some kv =>
    have hkv : goodVal kv.1 = true ∧ goodVal kv.2 = true := by
      simp only [goodSeg, hfil, Bool.and_eq_true] at hs
      exact hs.2
    rw [segStringP, hfil] at hx
    rcases List.mem_append.mp hx with hxn | hxr
    · exact Or.inl ((goodName_facts s.name hnm).2 x hxn).1
    · rcases List.mem_cons.mp hxr with heq | hxr2
      · exact Or.inr (Or.inl heq)
      · rcases List.mem_append.mp hxr2 with hxp | hxb
        · rcases mem_protectDots _ x hxp with heq | ⟨hxkv, _⟩
          · exact Or.inr (Or.inr (Or.inr (Or.inr heq)))
          · rcases List.mem_append.mp hxkv with hxk | hxv
            · exact Or.inl ((goodVal_facts kv.1 hkv.1).2 x hxk)
            · rcases List.mem_cons.mp hxv with heq | hxv2
              · exact Or.inr (Or.inr (Or.inr (Or.inl heq)))
              · exact Or.inl ((goodVal_facts kv.2 hkv.2).2 x hxv2)
        · rw [List.mem_singleton] at hxb
          exact Or.inr (Or.inr (Or.inl hxb))

/-- Characters of the protected render are non-whitespace, not percent and
not dots inside names. -/
theorem mem_renderCoreP (segs : List PathSeg) (hgood : ∀ s ∈ segs, goodSeg s = true)
    (x : Char) (hx : x ∈ renderCoreP segs) : ¬x.isWhitespace ∧ x ≠ '%' := by
  rcases mem_joinChar '.' (segs.map segStringP) x hx with heq | ⟨l, hl, hxl⟩
  · subst heq
    exact ⟨by decide, by decide⟩
  · rw [List.mem_map] at hl
    obtain ⟨s, hsmem, hsegeq⟩ := hl
    subst hsegeq
    rcases mem_segStringP s (hgood s hsmem) x hxl with hgc | hrest
    · have hf := goodChar_facts x hgc
      exact ⟨hf.1, hf.2.2.2.1⟩
    · rcases hrest with h1 | h1 | h1 | h1 <;> (subst h1; exact ⟨by decide, by decide⟩)

/-- Dollars never occur in a plain segment string. -/
theorem segString_noDollar (s : PathSeg) (hs : goodSeg s = true) :
    ∀ x ∈ segString s, x ≠ '$' := by
  have hnm : goodName s.name = true := by
    simp only [goodSeg, Bool.and_eq_true] at hs
    exact hs.1
  intro x hx
  cases hfil : s.filter with
  | none =>
    rw [segString, hfil] at hx
    exact (goodChar_facts x ((goodName_facts s.name hnm).2 x hx).1).2.2.2.2
  | some kv =>
    have hkv : goodVal kv.1 = true ∧ goodVal kv.2 = true := by
      simp only [goodSeg, hfil, Bool.and_eq_true] at hs
      exact hs.2
    rw [segString, hfil] at hx
    rcases List.mem_append.mp hx with hxn | hxr
    · exact (goodChar_facts x ((goodName_facts s.name hnm).2 x hxn).1).2.2.2.2
    · rcases List.mem_cons.mp hxr with heq | hxr2
      · subst heq; decide
      · rcases List.mem_append.mp hxr2 with hxkv | hxb
        · rcases List.mem_append.mp hxkv with hxk | hxv
          · exact (goodChar_facts x ((goodVal_facts kv.1 hkv.1).2 x hxk)).2.2.2.2
          · rcases List.mem_cons.mp hxv with heq | hxv2
            · subst heq; decide
            · exact (goodChar_facts x ((goodVal_facts kv.2 hkv.2).2 x hxv2)).2.2.2.2
        · rw [List.mem_singleton] at hxb
          subst hxb; decide

/-- Protected segment strings are dot-free. -/
theorem segStringP_dotFree (s : PathSeg) (hs : goodSeg s = true) :
    ∀ x ∈ segStringP s, x ≠ '.' := by
  have hnm : goodName s.name = true := by
    simp only [goodSeg, Bool.and_eq_true] at hs
    exact hs.1
  intro x hx
  cases hfil : s.filter with
  | none =>
    rw [segStringP, hfil] at hx
    exact ((goodName_facts s.name hnm).2 x hx).2
  | some kv =>
    rw [segStringP, hfil] at hx
    rcases List.mem_append.mp hx with hxn | hxr
    · exact ((goodName_facts s.name hnm).2 x hxn).2
    · rcases List.mem_cons.mp hxr with heq | hxr2
      · subst heq; decide
      · rcases List.mem_append.mp hxr2 with hxp | hxb
        · rcases mem_protectDots _ x hxp with heq | ⟨_, hnd⟩
          · subst heq; decide
          · exact hnd
        · rw [List.mem_singleton] at hxb
          subst hxb; decide

/-- The protected render of a non-empty segment list is non-empty. -/
theorem renderCoreP_ne_nil (segs : List PathSeg) (hne : segs ≠ [])
    (hgood : ∀ s ∈ segs, goodSeg s = true) : renderCoreP segs ≠ [] := by
  cases segs with
  | nil => exact absurd rfl hne
  | cons seg rest =>
    have hnm : goodName seg.name = true := by
      have hs := hgood seg (List.mem_cons_self _ _)
      simp only [goodSeg, Bool.and_eq_true] at hs
      exact hs.1
    have hname_ne := (goodName_facts seg.name hnm).1
    have hhead : ∃ c cs, segStringP seg = c :: cs := by
      cases hn : seg.name with
      | nil => exact absurd hn hname_ne
      | cons c cs =>
        cases hfil : seg.filter with
        | none => exact ⟨c, cs, by rw [segStringP, hfil, hn]⟩
        | some kv => exact ⟨c, cs ++ '[' :: (protectDots (kv.1 ++ '=' :: kv.2) ++ [']']),
            by rw [segStringP, hfil, hn]; rfl⟩
    obtain ⟨c, cs, hc⟩ := hhead
    cases rest with
    | nil =>
      rw [renderCoreP]
      simp only [List.map_cons, List.map_nil, joinChar, hc]
      simp
    | cons r2 rs =>
      rw [renderCoreP_cons_cons, hc]
      simp

/-- The protected render never ends in a percent sign. -/
theorem getLast_renderCoreP (segs : List PathSeg) (hne : segs ≠ [])
    (hgood : ∀ s ∈ segs, goodSeg s = true) :
    (renderCoreP segs).getLast? ≠ some '%' := by
  intro hcontra
  have hN := renderCoreP_ne_nil segs hne hgood
  have hmem : '%' ∈ renderCoreP segs := by
    rcases List.eq_nil_or_concat (renderCoreP segs) with h | ⟨L, b, h⟩
    · exact absurd h hN
    · have h2 : renderCoreP segs = L ++ [b] := by simpa using h
      rw [h2, List.getLast?_concat] at hcontra
      rw [h2]
      have hb : b = '%' := Option.some.inj hcontra
      subst hb
      simp
  exact absurd rfl (mem_renderCoreP segs hgood '%' hmem).2



/-- Restoring a protected segment string followed by a dollar-free
remainder yields the plain segment string. -/
theorem restore_segStringP_append (s : PathSeg) (hs : goodSeg s = true)
    (b : List Char) (hb : ∀ x ∈ b, x ≠ '$') :
    restoreDots (segStringP s ++ b) = segString s ++ b := by
  have hnm : goodName s.name = true := by
    simp only [goodSeg, Bool.and_eq_true] at hs
    exact hs.1
  have hname_nd : ∀ x ∈ s.name, x ≠ '$' := fun x hx =>
    (goodChar_facts x ((goodName_facts s.name hnm).2 x hx).1).2.2.2.2
  cases hfil : s.filter with
  | none =>
    rw [segStringP, segString, hfil]
    rw [restoreDots_append_noDollar s.name b hname_nd]
    rw [restoreDots_id b hb]
  | some kv =>
    have hkv : goodVal kv.1 = true ∧ goodVal kv.2 = true := by
      simp only [goodSeg, hfil, Bool.and_eq_true] at hs
      exact hs.2
    have hkv_nd : ∀ x ∈ kv.1 ++ '=' :: kv.2, x ≠ '$' := by
      intro x hx
      rcases List.mem_append.mp hx with hxk | hxv
      · exact (goodChar_facts x ((goodVal_facts kv.1 hkv.1).2 x hxk)).2.2.2.2
      · rcases List.mem_cons.mp hxv with heq | hxv2
        · subst heq; decide
        · exact (goodChar_facts x ((goodVal_facts kv.2 hkv.2).2 x hxv2)).2.2.2.2
    rw [segStringP, segString, hfil]
    have hshape : (s.name ++ '[' :: (protectDots (kv.1 ++ '=' :: kv.2) ++ [']'])) ++ b =
        (s.name ++ ['[']) ++ (protectDots (kv.1 ++ '=' :: kv.2) ++ (']' :: b)) := by
      simp
    rw [hshape]
    rw [restoreDots_append_noDollar (s.name ++ ['[']) _
      (by
        intro x hx
        rcases List.mem_append.mp hx with hxn | hxb
        · exact hname_nd x hxn
        · rw [List.mem_singleton] at hxb; subst hxb; decide)]
    rw [restoreDots_protectDots (kv.1 ++ '=' :: kv.2) hkv_nd (']' :: b)]
    rw [restoreDots_cons_ne ']' b (by decide)]
    rw [restoreDots_id b hb]
    simp

/-- Restoring a protected segment string yields the plain segment string. -/
theorem restore_segStringP (s : PathSeg) (hs : goodSeg s = true) :
    restoreDots (segStringP s) = segString s := by
  have h2 := restore_segStringP_append s hs [] (by intro x hx; cases hx)
  simpa using h2

/-- The dot-split of the protected render recovers the protected segment
strings. -/
theorem split_renderCoreP (segs : List PathSeg) (hne : segs ≠ [])
    (hgood : ∀ s ∈ segs, goodSeg s = true) :
    splitChar '.' (renderCoreP segs) = segs.map segStringP := by
  rw [renderCoreP]
  apply splitChar_joinChar
  · intro hc
    cases segs with
    | nil => exact absurd rfl hne
    | cons a r => cases hc
  · intro l hl ch hch
    rw [List.mem_map] at hl
    obtain ⟨s, hsmem, hseq⟩ := hl
    subst hseq
    exact segStringP_dotFree s (hgood s hsmem) ch hch

/-- modifyLastL on two or more parts keeps the head. -/
theorem modifyLastL_cons_cons (f : List Char → List Char) (x y : List Char)
    (ys : List (List Char)) :
    modifyLastL f (x :: y :: ys) = x :: modifyLastL f (y :: ys) := rfl

/-- Joining segments whose last got a suffix appended equals the join of
the segments followed by the suffix. -/
theorem joinChar_modifyLast (c : Char) (suffix : List Char) :
    ∀ xs : List (List Char), xs ≠ [] →
      joinChar c (modifyLastL (fun l => l ++ suffix) xs) = joinChar c xs ++ suffix := by
  intro xs
  induction xs with
  | nil => intro h; exact absurd rfl h
  | cons a rest ih =>
    intro _
    cases rest with
    | nil => rfl
    | cons b bs =>
      rw [modifyLastL_cons_cons]
      obtain ⟨h, t, hmod⟩ : ∃ h t, modifyLastL (fun l => l ++ suffix) (b :: bs) = h :: t := by
        cases bs with
        | nil => exact ⟨b ++ suffix, [], rfl⟩
        | cons b2 bs2 => exact ⟨b, modifyLastL (fun l => l ++ suffix) (b2 :: bs2), rfl⟩
      rw [hmod, joinChar_cons_cons, ← hmod, ih (by simp), joinChar_cons_cons]
      simp

/-- Mapping restoreDots over protected segments with the pattern suffix
appended to the last yields the plain segments with the suffix on the
last. -/
theorem restore_modifyLast (suffix : List Char) (hsuf : ∀ x ∈ suffix, x ≠ '$') :
    ∀ segs : List PathSeg, (∀ s ∈ segs, goodSeg s = true) →
      (modifyLastL (fun l => l ++ suffix) (segs.map segStringP)).map restoreDots =
        modifyLastL (fun l => l ++ suffix) (segs.map segString) := by
  intro segs
  induction segs with
  | nil => intro _; rfl
  | cons a rest ih =>
    intro hgood
    have hga := hgood a (List.mem_cons_self _ _)
    cases rest with
    | nil =>
      simp only [List.map_cons, List.map_nil, modifyLastL]
      rw [restore_segStringP_append a hga suffix hsuf]
    | cons b bs =>
      have hih := ih (fun s hs => hgood s (List.mem_cons_of_mem _ hs))
      simp only [List.map_cons] at hih ⊢
      rw [modifyLastL_cons_cons, modifyLastL_cons_cons, List.map_cons,
        restore_segStringP a hga, hih]

/-- Mapping restoreDots over protected segments yields the plain
segments. -/
theorem restore_map (segs : List PathSeg) (hgood : ∀ s ∈ segs, goodSeg s = true) :
    (segs.map segStringP).map restoreDots = segs.map segString := by
  induction segs with
  | nil => rfl
  | cons a rest ih =>
    simp only [List.map_cons]
    rw [restore_segStringP a (hgood a (List.mem_cons_self _ _))]
    rw [ih (fun s hs => hgood s (List.mem_cons_of_mem _ hs))]



/-- The pattern suffix of a rendered path expression. -/
def patSuffix : Option (List Char) → List Char
  | none => []
  | some q => '%' :: (q ++ ['%'])

/-- A full rendered path expression: dot-joined segments followed by the
optional percent-delimited pattern. -/
def renderPath (segs : List PathSeg) (pat : Option (List Char)) : List Char :=
  renderCore segs ++ patSuffix pat

/-- The segment strings parsePath must produce: the plain segment strings,
the pattern suffix re-attached to the last one. -/
def expectedSegs (segs : List PathSeg) (pat : Option (List Char)) : List (List Char) :=
  match pat with
  | none => segs.map segString
  | some q => modifyLastL (fun l => l ++ '%' :: (q ++ ['%'])) (segs.map segString)

/-- parsePath written with the staged protection function. -/
theorem parsePath_staged (p : List Char) :
    parsePath p =
      (let ex := extractSubstringPattern (pStage p)
       let pathSlice := splitChar '.' ex.1
       (if ex.2.length > 0 then
          modifyLastL (fun last => last ++ '%' :: ex.2 ++ ['%']) pathSlice
        else pathSlice).map restoreDots) := rfl

/-- C4: dot preservation round trip. For every structured path expression
(non-empty segments, possibly dotted filter values, optional dotted
trailing pattern) rendered as a string, parsePath recovers exactly the
intended segment strings, dots of filter values and pattern included, and
re-joining the parsed segments with dots reproduces the original path
expression character for character. -/
theorem C4_dot_preservation (segs : List PathSeg) (pat : Option (List Char))
    (hne : segs ≠ []) (hgood : ∀ s ∈ segs, goodSeg s = true)
    (hpat : ∀ q, pat = some q → goodVal q = true) :
    parsePath (renderPath segs pat) = expectedSegs segs pat ∧
    joinChar '.' (parsePath (renderPath segs pat)) = renderPath segs pat := by
  have hsuf_clean : ∀ x ∈ patSuffix pat, x ≠ '[' ∧ x ≠ ']' := by
    cases pat with
    | none => intro x hx; cases hx
    | some q =>
      intro x hx
      rcases List.mem_cons.mp hx with heq | hx2
      · subst heq; exact ⟨(by decide), (by decide)⟩
      · rcases List.mem_append.mp hx2 with hxq | hxp
        · have hg := goodChar_facts x ((goodVal_facts q (hpat q rfl)).2 x hxq)
          exact ⟨hg.2.1, hg.2.2.1⟩
        · rw [List.mem_singleton] at hxp; subst hxp; exact ⟨(by decide), (by decide)⟩
  have hP : pStage (renderPath segs pat) = renderCoreP segs ++ patSuffix pat := by
    rw [renderPath]
    exact pStage_render segs (patSuffix pat) hgood hsuf_clean
  have hmain : parsePath (renderPath segs pat) = expectedSegs segs pat := by
    rw [parsePath_staged]
    dsimp only
    rw [hP]
    cases pat with
    | none =>
      rw [show patSuffix none = [] from rfl, List.append_nil]
      rw [extract_no_percent_end (renderCoreP segs)
        (fun x hx => (mem_renderCoreP segs hgood x hx).1)
        (getLast_renderCoreP segs hne hgood)]
      dsimp only
      rw [if_neg (by simp)]
      rw [split_renderCoreP segs hne hgood]
      rw [restore_map segs hgood]
      rfl
    | some q =>
      have hq := goodVal_facts q (hpat q rfl)
      rw [show patSuffix (some q) = '%' :: (q ++ ['%']) from rfl]
      rw [extract_pattern (renderCoreP segs) q (renderCoreP_ne_nil segs hne hgood) hq.1
        (fun x hx => mem_renderCoreP segs hgood x hx)
        (fun x hx => ⟨(goodChar_facts x (hq.2 x hx)).1, (goodChar_facts x (hq.2 x hx)).2.2.2.1⟩)]
      dsimp only
      rw [if_pos (by
        cases q with
        | nil => exact absurd rfl hq.1
        | cons q0 qs => simp)]
      rw [split_renderCoreP segs hne hgood]
      have hsufnd : ∀ x ∈ '%' :: (q ++ ['%']), x ≠ '$' := by
        intro x hx
        rcases List.mem_cons.mp hx with heq | hx2
        · subst heq; decide
        · rcases List.mem_append.mp hx2 with hxq | hxp
          · exact (goodChar_facts x (hq.2 x hxq)).2.2.2.2
          · rw [List.mem_singleton] at hxp; subst hxp; decide
      have hrm := restore_modifyLast ('%' :: (q ++ ['%'])) hsufnd segs hgood
      have hlam : (fun last => last ++ '%' :: q ++ ['%']) =
          (fun l => l ++ '%' :: (q ++ ['%'])) := by
        funext l
        simp
      rw [hlam, hrm]
      rfl
  refine ⟨hmain, ?_⟩
  rw [hmain]
  cases pat with
  | none =>
    rw [show expectedSegs segs none = segs.map segString from rfl]
    rw [show renderPath segs none = renderCore segs from by
      rw [renderPath, show patSuffix none = [] from rfl, List.append_nil]]
    rfl
  | some q =>
    rw [show expectedSegs segs (some q) =
      modifyLastL (fun l => l ++ '%' :: (q ++ ['%'])) (segs.map segString) from rfl]
    rw [joinChar_modifyLast '.' ('%' :: (q ++ ['%'])) (segs.map segString)
      (by
        cases segs with
        | nil => exact absurd rfl hne
        | cons a r => simp)]
    rfl

/-- C4 witness: the rendered path a[ip=10.0.0.1].b parses to the two
segments a[ip=10.0.0.1] and b with the dotted filter value intact, and the
pattern render data.endpoint%0.9% keeps its dots; both re-join to the
original strings. -/
theorem C4_dot_preservation_witness :
    parsePath "a[ip=10.0.0.1].b".toList = ["a[ip=10.0.0.1]".toList, "b".toList] ∧
    joinChar '.' (parsePath "a[ip=10.0.0.1].b".toList) = "a[ip=10.0.0.1].b".toList ∧
    parsePath "data.endpoint%0.9%".toList =
      ["data".toList, "endpoint%0.9%".toList] ∧
    joinChar '.' (parsePath "data.endpoint%0.9%".toList) = "data.endpoint%0.9%".toList := by
  have h1 := C4_dot_preservation
    [⟨"a".toList, some ("ip".toList, "10.0.0.1".toList)⟩, ⟨"b".toList, none⟩] none
    (by simp)
    (by
      intro s hs
      rcases List.mem_cons.mp hs with heq | hs2
      · subst heq; decide
      · rw [List.mem_singleton] at hs2; subst hs2; decide)
    (by intro q hq; cases hq)
  have h2 := C4_dot_preservation
    [⟨"data".toList, none⟩, ⟨"endpoint".toList, none⟩] (some "0.9".toList)
    (by simp)
    (by
      intro s hs
      rcases List.mem_cons.mp hs with heq | hs2
      · subst heq; decide
      · rw [List.mem_singleton] at hs2; subst hs2; decide)
    (by intro q hq; rw [← Option.some.inj hq]; decide)
  refine ⟨?_, ?_, ?_, ?_⟩
  · have := h1.1
    rw [show renderPath [⟨"a".toList, some ("ip".toList, "10.0.0.1".toList)⟩,
      ⟨"b".toList, none⟩] none = "a[ip=10.0.0.1].b".toList from rfl] at this
    rw [this]
    rfl
  · have := h1.2
    rw [show renderPath [⟨"a".toList, some ("ip".toList, "10.0.0.1".toList)⟩,
      ⟨"b".toList, none⟩] none = "a[ip=10.0.0.1].b".toList from rfl] at this
    rw [this]
  · have := h2.1
    rw [show renderPath [⟨"data".toList, none⟩, ⟨"endpoint".toList, none⟩]
      (some "0.9".toList) = "data.endpoint%0.9%".toList from rfl] at this
    rw [this]
    rfl
  · have := h2.2
    rw [show renderPath [⟨"data".toList, none⟩, ⟨"endpoint".toList, none⟩]
      (some "0.9".toList) = "data.endpoint%0.9%".toList from rfl] at this
    rw [this]

end Replacement
